import Mathlib

/-!
# Verification of the DanMuDownLoader danmaku converter

Shallow embedding of `streamlit_DanMuDownLoader.py` in Lean 4.

Conventions of the embedding:
* Python floats are modelled as `ℚ` (exact real arithmetic idealization of
  IEEE doubles; all claims and all concrete inputs used below are exact in
  both arithmetics).
* Python ints are `ℤ` (they are unbounded in Python), counters are `ℕ`.
* Python strings are modelled as `List Char` (`Str` below).
* Fallible code (`try/except`, `int(...)`, `float(...)`) is modelled with
  `Option`.
-/

abbrev Str := List Char

/-- The subset of `CONFIG` that the conversion core reads
(`ASS_FONT_SIZE`, `ASS_DURATION`, `STOP_DURATION`, `ASS_DISPLAY_AREA`,
`ASS_OPACITY`).  Font name / bold / outline only appear verbatim inside the
header text and are irrelevant to every claim. -/
structure Config where
  fontSize : ℕ
  duration : ℚ
  stop : ℚ
  area : ℚ
  opacity : ℚ

/-- `display_h = int(PLAY_RES_Y * CONFIG['ASS_DISPLAY_AREA'])`, `PLAY_RES_Y = 1080`. -/
def dispH (cfg : Config) : ℕ := (⌊(1080 : ℚ) * cfg.area⌋).toNat

/-- comment height `h = int(CONFIG['ASS_FONT_SIZE'] * 1.2)`. -/
def hN (cfg : Config) : ℕ := (⌊(cfg.fontSize : ℚ) * 1.2⌋).toNat

/-- One parsed comment (an element of the Python `danmus` list):
`{'start': float(p[0]), 'mode': mode, 'color': …, 'text': …, 'w': w, 'h': …}`.
The color string plays no role in lane allocation; it is kept abstract here
(`dec_to_ass_color` is modelled separately below). -/
structure Danmu where
  start : ℚ
  mode : ℤ
  w : ℚ
  text : Str
  deriving Repr, DecidableEq

/-- One placed comment: the data of an emitted `Dialogue:` event that the
claims need (motion mode, start time, width, allocated row `target_row`). -/
structure Placement where
  mode : ℤ
  start : ℚ
  w : ℚ
  row : ℕ
  deriving Repr, DecidableEq

/-- Lane-allocator state: the two lane tables
(`rows_scroll`, `rows_top`, both of length `display_h + 1`) and the list of
placements made so far (in emission order). Cells beyond `display_h` are
never read or written, so the tables are total functions here. -/
structure AllocState where
  scroll : ℕ → Option (ℚ × ℚ)
  fixed : ℕ → Option ℚ
  placed : List Placement

def initState : AllocState := ⟨fun _ => none, fun _ => none, []⟩

/-- The candidate rows `range(0, display_h - h, 8)` (note: Python `range`
with a non-positive bound is empty; `Nat` subtraction gives the same). -/
def cands (cfg : Config) : List ℕ :=
  (List.range ((dispH cfg - hN cfg + 7) / 8)).map (· * 8)

/-- The Python `for r in …: if cond: target_row = r; break` idiom:
first element of the list satisfying the predicate. -/
def firstHit (l : List ℕ) (p : ℕ → Bool) : Option ℕ :=
  l.find? p

/-- Scroll-lane availability test (line 129 of the source):
`not prev or ((prev[0] + DUR * (prev[1] / (prev[1] + 1920)) < start_t) and (prev[0] < threshold_t))`.
A tuple is always truthy in Python, so only `None` counts as free. -/
def predS (dur : ℚ) (cell : Option (ℚ × ℚ)) (s threshold : ℚ) : Bool :=
  match cell with
  | none => true
  | some (ps, pw) =>
      decide (ps + dur * (pw / (pw + 1920)) < s) && decide (ps < threshold)

/-- Fixed-lane availability test (line 140 of the source):
`not rows_top[r] or rows_top[r] < start_t`.
The cell holds a Python float, and `not 0.0` is `True`: a stored release
time of exactly `0` therefore also counts as free. -/
def predF (cell : Option ℚ) (s : ℚ) : Bool :=
  match cell with
  | none => true
  | some rel => decide (rel = 0) || decide (rel < s)

/-- `for i in range(target_row, min(target_row + h, display_h)): tbl[i] = v`. -/
def writeBlock {α : Type} (tbl : ℕ → Option α) (lo hi : ℕ) (v : α) : ℕ → Option α :=
  fun i => if lo ≤ i ∧ i < hi then some v else tbl i

/-- One iteration of the allocation loop (lines 122–149 of the source) for
one comment `c`.  Modes 1–3 use the scroll table, modes 4 and 5 both use
the single `rows_top` table; any other mode emits nothing. -/
def allocStep (cfg : Config) (st : AllocState) (c : Danmu) : AllocState :=
  if c.mode = 1 ∨ c.mode = 2 ∨ c.mode = 3 then
    match firstHit (cands cfg) (fun r => predS cfg.duration (st.scroll r) c.start
      (c.start - cfg.duration * (1 - 1920 / (c.w + 1920)))) with
    | none => st
    | some r =>
        { st with
          scroll := writeBlock st.scroll r (min (r + hN cfg) (dispH cfg)) (c.start, c.w)
          placed := st.placed ++ [⟨c.mode, c.start, c.w, r⟩] }
  else if c.mode = 4 ∨ c.mode = 5 then
    match firstHit (cands cfg) (fun r => predF (st.fixed r) c.start) with
    | none => st
    | some r =>
        { st with
          fixed := writeBlock st.fixed r (min (r + hN cfg) (dispH cfg)) (c.start + cfg.stop)
          placed := st.placed ++ [⟨c.mode, c.start, c.w, r⟩] }
  else st

/-- The whole allocation loop `for c in danmus: …` over an already sorted list. -/
def allocAll (cfg : Config) (l : List Danmu) : AllocState :=
  l.foldl (allocStep cfg) initState

/-- Stable ascending insertion of a comment (the element being inserted
comes from earlier in the original list than everything already present,
so it goes before items with an equal key). -/
def insSorted (c : Danmu) : List Danmu → List Danmu
  | [] => [c]
  | d :: ds => if c.start ≤ d.start then c :: d :: ds else d :: insSorted c ds

/-- `danmus.sort(key=lambda x: x['start'])`: Python's sort is the unique
stable ascending sort, which insertion sort also computes. -/
def sortDanmus : List Danmu → List Danmu
  | [] => []
  | c :: cs => insSorted c (sortDanmus cs)

/-- Sort followed by lane allocation (lines 120–149). -/
def convertAlloc (cfg : Config) (l : List Danmu) : AllocState :=
  allocAll cfg (sortDanmus l)

/-- Fixed-lane placements (`rows_top` users): modes 4 and 5. -/
def isFixed (p : Placement) : Bool := p.mode = 4 || p.mode = 5

/-- Scroll-lane placements (`rows_scroll` users): modes 1, 2, 3. -/
def isScroll (p : Placement) : Bool := p.mode = 1 || p.mode = 2 || p.mode = 3

def pf (st : AllocState) : List Placement := st.placed.filter isFixed

/-- Allocated row ranges `[row, row + h)` intersect. -/
def rowsIntersect (cfg : Config) (a b : Placement) : Prop :=
  ∃ i : ℕ, (a.row ≤ i ∧ i < a.row + hN cfg) ∧ (b.row ≤ i ∧ i < b.row + hN cfg)

/-- Display-time intervals intersect.  A scroll event spans
`[start, start + ASS_DURATION]`, a fixed event `[start, start + STOP_DURATION]`
(the `Dialogue:` lines of the source, lines 137 and 149). -/
def lifespan (cfg : Config) (p : Placement) : ℚ :=
  if isFixed p then cfg.stop else cfg.duration

def timesIntersect (cfg : Config) (a b : Placement) : Prop :=
  max a.start b.start ≤ min (a.start + lifespan cfg a) (b.start + lifespan cfg b)

/-! ## Decimal / hexadecimal rendering and Python numeric parsing -/

def digitChar (n : ℕ) : Char := Char.ofNat (48 + n)

/-- Lowercase hex digit (`%x` formatting). -/
def hexDigitChar (n : ℕ) : Char :=
  if n < 10 then Char.ofNat (48 + n) else Char.ofNat (87 + n)

/-- Digits of a natural number in base `b ≥ 2`, most significant first,
rendered by `dig`; `fuel` bounds the recursion depth (`n` itself always
suffices since `n / b < n`). -/
def digitsAux (b : ℕ) (dig : ℕ → Char) : ℕ → ℕ → Str
  | 0, n => [dig n]
  | fuel + 1, n => if n < b then [dig n] else digitsAux b dig fuel (n / b) ++ [dig (n % b)]

/-- Decimal digits of a natural number, most significant first (`f"{n}"`). -/
def natDigits (n : ℕ) : Str := digitsAux 10 digitChar n n

/-- Lowercase hex digits of a natural number (`f"{n:x}"`). -/
def natHex (n : ℕ) : Str := digitsAux 16 hexDigitChar n n

def padLeft (c : Char) (w : ℕ) (s : Str) : Str :=
  List.replicate (w - s.length) c ++ s

/-- `f"{n:02d}"` for a natural number. -/
def pad2 (n : ℕ) : Str := padLeft '0' 2 (natDigits n)

/-- Numeric value of a digit string (leading zeros allowed). -/
def valOfDigits (s : Str) : ℕ :=
  s.foldl (fun a c => 10 * a + (c.toNat - 48)) 0

def allDigits (s : Str) : Bool := s.all Char.isDigit

def trimL (s : Str) : Str := s.dropWhile Char.isWhitespace

/-- Python `str.strip()`. -/
def trimStr (s : Str) : Str := ((trimL s).reverse.dropWhile Char.isWhitespace).reverse

/-- Python `int(str)`: optional surrounding whitespace, optional sign, a
nonempty digit run.  (Numeric-literal underscores are not modelled; no
claim involves them.) -/
def pyInt (s : Str) : Option ℤ :=
  let t := trimStr s
  let digitsOpt : Str → Option ℤ := fun r =>
    if r ≠ [] ∧ allDigits r then some (valOfDigits r) else none
  match t with
  | '+' :: rest => digitsOpt rest
  | '-' :: rest => (digitsOpt rest).map (fun z => -z)
  | _ => digitsOpt t

/-- Python `str.split(sep)`: split at every occurrence of `sep`, keeping
empty pieces (`"" → [""]`, `",," → ["", "", ""]`). -/
def splitOnChar (sep : Char) : Str → List Str
  | [] => [[]]
  | c :: cs =>
      match splitOnChar sep cs with
      | [] => [[]]
      | h :: t => if c = sep then [] :: h :: t else (c :: h) :: t

/-- Python `float(str)` restricted to plain decimal notation
`[sign] digits [. digits]` / `[sign] . digits` (scientific notation,
`inf` and `nan` are not modelled; no claim involves them). -/
def pyFloatBody (t : Str) : Option ℚ :=
  match splitOnChar '.' t with
  | [ip] => if ip ≠ [] ∧ allDigits ip then some (valOfDigits ip) else none
  | [ip, fp] =>
      if (ip ≠ [] ∨ fp ≠ []) ∧ allDigits ip ∧ allDigits fp then
        some ((valOfDigits ip : ℚ) + (valOfDigits fp : ℚ) / (10 : ℚ) ^ fp.length)
      else none
  | _ => none

def pyFloat (s : Str) : Option ℚ :=
  match trimStr s with
  | '+' :: rest => pyFloatBody rest
  | '-' :: rest => (pyFloatBody rest).map (fun q => -q)
  | t => pyFloatBody t

/-! ## Subtitle renderer helpers (§2 of the source) -/

/-- `get_ass_opacity_hex`: `f"{int(255 * (1 - max(0.0, min(1.0, opacity)))):02x}"`.
The value is in `[0, 255]`, so Python `int` truncation equals `⌊·⌋`. -/
def get_ass_opacity_hex (op : ℚ) : Str :=
  padLeft '0' 2 (natHex (⌊255 * (1 - max 0 (min 1 op))⌋).toNat)

/-- `f"{n:06x}"` for a Python int (the width includes the sign character). -/
def pyHex06 (n : ℤ) : Str :=
  if n < 0 then '-' :: padLeft '0' 5 (natHex (-n).toNat)
  else padLeft '0' 6 (natHex n.toNat)

/-- `dec_to_ass_color`: parse the decimal color, format as 6 lowercase hex
digits, split into `r`, `g`, `b` byte pairs and emit `&H{alpha}{b}{g}{r}`;
on any parse failure fall back to `&H{alpha}FFFFFF`. -/
def dec_to_ass_color (opacity : ℚ) (decColor : Str) : Str :=
  match pyInt decColor with
  | some n =>
      let hx := pyHex06 n
      let r := hx.take 2
      let g := (hx.drop 2).take 2
      let b := (hx.drop 4).take 2
      "&H".toList ++ get_ass_opacity_hex opacity ++ b ++ g ++ r
  | none => "&H".toList ++ get_ass_opacity_hex opacity ++ "FFFFFF".toList

/-- Python `a % b` for floats (`b > 0` in every use). -/
def pyMod (a b : ℚ) : ℚ := a - b * ⌊a / b⌋

/-- Round half to even to an integer (the rounding of `%.2f` formatting;
all inputs used by the claims are exact, so ties never actually occur). -/
def roundHE (x : ℚ) : ℤ :=
  let fl := ⌊x⌋
  let fr := x - fl
  if fr < 1 / 2 then fl
  else if 1 / 2 < fr then fl + 1
  else if fl % 2 = 0 then fl else fl + 1

/-- `f"{x:05.2f}"` for `x ≥ 0`. -/
def fmt52 (x : ℚ) : Str :=
  let c := roundHE (100 * x)
  padLeft '0' 5 (natDigits (c / 100).toNat ++ '.' :: pad2 (c % 100).toNat)

/-- `format_time` (lines 99–101):
`t = max(0, t); f"{int(t//3600)}:{int((t%3600)//60):02d}:{t%60:05.2f}"`. -/
def format_time (t : ℚ) : Str :=
  let t := max 0 t
  natDigits (⌊t / 3600⌋).toNat ++ ':' :: pad2 (⌊pyMod t 3600 / 60⌋).toNat
    ++ ':' :: fmt52 (pyMod t 60)

/-! ## Comment parser (lines 104–118) -/

/-- One `<d>` element of the feed: its `p` attribute (`None` if absent) and
its text payload (`None` models an empty element whose `.text` is `None`). -/
structure DRecord where
  p : Option Str
  text : Option Str
  deriving Repr, DecidableEq

/-- `sum(2.0 if ord(c) > 127 else 1.0 for c in text)`. -/
def charUnits (t : Str) : ℚ := (t.map (fun c => if c.toNat > 127 then (2 : ℚ) else 1)).sum

/-- Parse one record.  Outer `none` = an exception escapes to the blanket
`except` (missing `p` attribute, or `float`/`int` failing on a field);
`some none` = the record is silently dropped (fewer than 4 fields);
`some (some d)` = a parsed comment.  `dec_to_ass_color` never raises, and
the color plays no role in allocation, so it is not stored. -/
def parseRecord (cfg : Config) (rec : DRecord) : Option (Option Danmu) :=
  match rec.p with
  | none => none
  | some ps =>
      let fields := splitOnChar ',' ps
      if fields.length ≥ 4 then
        let text := rec.text.getD []
        match pyFloat (fields.getD 0 []), pyInt (fields.getD 1 []) with
        | some st, some m =>
            let mode := if cfg.stop ≤ 0 ∧ (m = 4 ∨ m = 5) then 1 else m
            some (some ⟨st, mode, charUnits text * ((cfg.fontSize : ℚ) / 2), text⟩)
        | _, _ => none
      else some none

/-- `convert_xml_to_ass` on an already well-formed XML document, abstracted
to the list of its `<d>` records; returns the placed events (`none` models
`return None` from the blanket `except`).  Header and event strings carry
no information the claims need beyond `Placement`. -/
def convertModel (cfg : Config) (doc : List DRecord) : Option (List Placement) :=
  (doc.mapM (parseRecord cfg)).map
    (fun l => (convertAlloc cfg (l.filterMap id)).placed)

/-! ## Batch fetch orchestrator (§4 of the source, lines 402–448) -/

/-- `content = convert_xml_to_ass(r.text) if CONFIG['SAVE_AS_ASS'] else r.text`. -/
def contentOf (saveAss : Bool) (conv : Str → Option Str) (xml : Str) : Option Str :=
  if saveAss then conv xml else some xml

/-- Python truthiness of `content`: `None` and `""` are falsy. -/
def truthy (c : Option Str) : Bool :=
  match c with
  | some s => !s.isEmpty
  | none => false

/-- Result of the retry loop for one item. -/
structure ItemOutcome where
  attempts : ℕ        -- number of fetch calls made (loop iterations)
  sleeps : List ℕ     -- the `time.sleep(2)` backoffs taken, in order
  artifact : Option Str
  tripped : Bool      -- the explicit circuit-breaker branch (`retry == 5` with
                      -- an exception) ran: logs `熔断` and sets `is_running = False`
  deriving Repr, DecidableEq

/-- The retry loop `for retry in range(6)` over the list of remaining
iteration indices.  `fetch k` is the outcome of the
`requests.get`/`raise_for_status` call on attempt `k` (`.error` = an
exception was raised).  On the last iteration an exception runs the
explicit breaker branch; a fetched document whose content is falsy
(conversion returned `None`, or the text is empty) does not break out of
the loop, so the next iteration fetches again. -/
def itemGo (fetch : ℕ → Except Unit Str) (conv : Str → Option Str) (saveAss : Bool) :
    List ℕ → ItemOutcome
  | [] => ⟨0, [], none, false⟩
  | [r] =>
      match fetch r with
      | .error _ => ⟨1, [], none, true⟩
      | .ok xml =>
          let content := contentOf saveAss conv xml
          if truthy content then ⟨1, [], content, false⟩ else ⟨1, [], none, false⟩
  | r :: rest =>
      match fetch r with
      | .error _ =>
          let o := itemGo fetch conv saveAss rest
          ⟨o.attempts + 1, 2 :: o.sleeps, o.artifact, o.tripped⟩
      | .ok xml =>
          let content := contentOf saveAss conv xml
          if truthy content then ⟨1, [], content, false⟩
          else
            let o := itemGo fetch conv saveAss rest
            ⟨o.attempts + 1, 2 :: o.sleeps, o.artifact, o.tripped⟩

def itemOutcome (fetch : ℕ → Except Unit Str) (conv : Str → Option Str)
    (saveAss : Bool) : ItemOutcome :=
  itemGo fetch conv saveAss [0, 1, 2, 3, 4, 5]

/-- Terminal batch states.  `completed` = every selected item produced an
artifact; `circuitBroken` = the explicit breaker branch ran (6 fetch
exceptions); `abortedNoArtifact` = an item exhausted its 6 attempts without
an exception on the last one (falsy content), and `if not success: break`
stopped the batch without the breaker log. -/
inductive BState
  | completed
  | circuitBroken
  | abortedNoArtifact
  deriving Repr, DecidableEq

structure BatchResult where
  records : List (ℕ × ItemOutcome)  -- per processed item, in processing order
  artifacts : List (ℕ × Str)        -- the `download_files` entries added
  state : BState
  deriving Repr, DecidableEq

/-- The download loop over the selected items (`for i, idx in enumerate(indices)`).
Cooperative cancellation (the `is_running` poll before each item) is not
modelled: no claim concerns a mid-run external cancel. -/
def runBatch (fetch : ℕ → ℕ → Except Unit Str) (conv : Str → Option Str)
    (saveAss : Bool) : List ℕ → BatchResult
  | [] => ⟨[], [], .completed⟩
  | i :: rest =>
      let o := itemOutcome (fetch i) conv saveAss
      match o.artifact with
      | some a =>
          let r := runBatch fetch conv saveAss rest
          ⟨(i, o) :: r.records, (i, a) :: r.artifacts, r.state⟩
      | none => ⟨[(i, o)], [], if o.tripped then .circuitBroken else .abortedNoArtifact⟩

/-! ## Batch selection parsing (lines 369–381) -/

/-- `range_input` parsing: `"0"` → all indices; a string containing `"-"` →
`s_n, e_n = map(int, clean.split("-"))` and
`[i for i in range(s_n-1, e_n) if 0 <= i < len]`; otherwise a bare int
`k` with `0 < k <= len` → `[k-1]`.  Every failure path raises, is caught,
and yields no processed items (modelled as `[]`). -/
def parseSelection (s : Str) (n : ℕ) : List ℕ :=
  let clean := trimStr s
  if clean = ['0'] then List.range n
  else if clean.contains '-' then
    match splitOnChar '-' clean with
    | [a, b] =>
        match pyInt a, pyInt b with
        | some sn, some en => (List.range n).filter (fun i => sn - 1 ≤ (i : ℤ) ∧ (i : ℤ) < en)
        | _, _ => []
    | _ => []
  else
    match pyInt clean with
    | some k => if 0 < k ∧ k ≤ n then [(k - 1).toNat] else []
    | none => []

/-! ## Naming resolver (lines 341–352, 389–399, 410) -/

def tagTitle : Str := "[标题]".toList
def tagEp : Str := "[集数]".toList
def tagSeq : Str := "[序号]".toList
def tagOrig : Str := "[原]".toList

/-- Worker for `replaceAll`; `fuel` bounds the recursion depth
(the length of `s` always suffices: each step consumes at least one
character of `s`). -/
def replaceAllAux (p r : Str) : ℕ → Str → Str
  | 0, s => s
  | _, [] => []
  | fuel + 1, c :: cs =>
      if p.isPrefixOf (c :: cs) then r ++ replaceAllAux p r fuel ((c :: cs).drop p.length)
      else c :: replaceAllAux p r fuel cs

/-- Python `str.replace(p, r)`: replace all non-overlapping occurrences,
scanning left to right.  (`p` is never empty in the source.) -/
def replaceAll (p r s : Str) : Str :=
  if p = [] then s else replaceAllAux p r s.length s

/-- Python `p in s` (substring test). -/
def containsSub (s p : Str) : Bool :=
  match s with
  | [] => p.isEmpty
  | _ :: cs => p.isPrefixOf s || containsSub cs p

/-- Worker for `findSeqWidths` with a recursion-depth bound (each step
consumes at least one character, so the length of `s` suffices). -/
def findSeqWidthsAux : ℕ → Str → List Str
  | 0, _ => []
  | _, [] => []
  | fuel + 1, c :: cs =>
      if ['[', '序', '号'].isPrefixOf (c :: cs) then
        let digs := (cs.drop 2).takeWhile Char.isDigit
        match (cs.drop 2).drop digs.length with
        | ']' :: tail =>
            if digs.isEmpty then findSeqWidthsAux fuel cs
            else digs :: findSeqWidthsAux fuel tail
        | _ => findSeqWidthsAux fuel cs
      else findSeqWidthsAux fuel cs

/-- `re.findall(r'\[序号(\d+)\]', s)`: the digit groups of the
non-overlapping left-to-right matches of `[序号<digits>]`. -/
def findSeqWidths (s : Str) : List Str := findSeqWidthsAux s.length s

/-- `apply_name_format` (lines 341–352). -/
def apply_name_format (fmt kw : Str) (idx : ℕ) (isMovie : Bool) (total : ℕ)
    (rawT : Str) : Str :=
  let res1 := replaceAll tagOrig rawT (replaceAll tagTitle kw fmt)
  let epTag : Str := if isMovie ∧ total = 1 then [] else 'E' :: pad2 (idx + 1)
  let res2 := replaceAll tagEp epTag res1
  let idxTag : Str := if isMovie ∧ total = 1 then [] else pad2 (idx + 1)
  let res3 := replaceAll tagSeq idxTag res2
  (findSeqWidths res3).foldl
    (fun acc m =>
      let dyn : Str := if isMovie ∧ total = 1 then []
                       else padLeft '0' (valOfDigits m) (natDigits (idx + 1))
      replaceAll ('[' :: '序' :: '号' :: m ++ [']']) dyn acc)
    res3

def unsafeChars : Str := "\\/:*?\"<>|".toList

/-- Worker for `collapseWs` with a recursion-depth bound. -/
def collapseWsAux : ℕ → Str → Str
  | 0, s => s
  | _, [] => []
  | fuel + 1, c :: cs =>
      if c.isWhitespace then ' ' :: collapseWsAux fuel (cs.dropWhile Char.isWhitespace)
      else c :: collapseWsAux fuel cs

/-- `re.sub(r'\s+', ' ', s)`: collapse each whitespace run to one space. -/
def collapseWs (s : Str) : Str := collapseWsAux s.length s

/-- Line 410: `re.sub(r'[\\/:*?"<>|]', '_', re.sub(r'\s+', ' ', save_name).strip())`. -/
def sanitizeName (s : Str) : Str :=
  (trimStr (collapseWs s)).map (fun c => if c ∈ unsafeChars then '_' else c)

/-- The collision pre-check (lines 390–399) followed by the per-item name
derivation of the real run (lines 409–410).  `titles i` is the cleaned raw
title (`clean_raw_title`) of item `i`.  Returns the possibly-extended
format and the final filenames (without the suffix, which is constant
across the batch). -/
def resolveNames (fmt kw : Str) (idxs : List ℕ) (isMovie : Bool)
    (titles : ℕ → Str) : Str × List Str :=
  let total := idxs.length
  let test := idxs.map (fun i => apply_name_format fmt kw i isMovie total (titles i))
  let fmt' := if total > 1 ∧ test.dedup.length < total ∧ containsSub fmt tagEp = false
              then fmt ++ tagEp else fmt
  (fmt', idxs.map (fun i => sanitizeName (apply_name_format fmt' kw i isMovie total (titles i))))

/-! ## Shared evaluation helpers -/

/-- The default configuration (`DEFAULT_CONFIG`): font size 50, scroll
duration 25 s, dwell 5 s, display area 0.2, opacity 0.8. -/
def cfg0 : Config := ⟨50, 25, 5, 1/5, 4/5⟩

theorem dispH_cfg0 : dispH cfg0 = 216 := by
  have h : ⌊(1080 : ℚ) * cfg0.area⌋ = 216 := by norm_num [cfg0]
  rw [dispH, h]; rfl

theorem hN_cfg0 : hN cfg0 = 60 := by
  have h : ⌊(cfg0.fontSize : ℚ) * 1.2⌋ = 60 := by norm_num [cfg0]
  rw [hN, h]; rfl

theorem cands_cfg0 : cands cfg0 =
    [0, 8, 16, 24, 32, 40, 48, 56, 64, 72, 80, 88, 96, 104, 112, 120, 128, 136, 144, 152] := by
  rw [cands, dispH_cfg0, hN_cfg0]; decide

theorem format_time_eval (t : ℚ) (ht : 0 ≤ t) (H M C : ℤ)
    (h1 : ⌊t / 3600⌋ = H) (h2 : ⌊pyMod t 3600 / 60⌋ = M)
    (h3 : roundHE (100 * pyMod t 60) = C) :
    format_time t = natDigits H.toNat ++ ':' :: pad2 M.toNat ++ ':' ::
      padLeft '0' 5 (natDigits (C / 100).toNat ++ '.' :: pad2 (C % 100).toNat) := by
  rw [format_time]
  simp only [max_eq_right ht, fmt52, h1, h2, h3]

/-! ## C2 — scroll-lane reuse condition -/

/-- C2, counterexample.  With the default scroll duration 25, a prior
occupant `(start 0, width 1920)` and a new comment at `start 20` of width
25, the lane is judged reusable (`predS` is `true`) although the prior
occupant has not fully exited the screen by time 20 (its travel of width +
1920 pixels only completes at `0 + 25 > 20`), so "reusable iff (fully
exited ∧ threshold)" is false at this input. -/
theorem c2_counterexample :
    ¬ (predS 25 (some (0, 1920)) 20 (20 - 25 * (1 - 1920 / (25 + 1920))) = true ↔
        ((0 : ℚ) + 25 ≤ 20 ∧ (0 : ℚ) < 20 - 25 * (1 - 1920 / (25 + 1920)))) := by
  intro h
  have htrue : predS 25 (some (0, 1920)) 20 (20 - 25 * (1 - 1920 / (25 + 1920))) = true := by
    norm_num [predS]
  have := (h.mp htrue).1
  norm_num at this

/-- C2 (amended): a candidate scroll lane occupied by `(ps, pw)` is judged
reusable for a new comment `(s, w)` iff (1) the prior occupant has fully
*entered* the screen by time `s` — the distance it has travelled,
`(s - ps) · (pw + 1920)/duration`, exceeds its own width `pw` — and
(2) `ps < s - duration * (1 - 1920/(w + 1920))`. -/
theorem c2_theorem (dur ps pw s w : ℚ) (hd : 0 < dur) (hpw : 0 ≤ pw) :
    predS dur (some (ps, pw)) s (s - dur * (1 - 1920 / (w + 1920))) = true ↔
      (pw < (s - ps) * ((pw + 1920) / dur) ∧ ps < s - dur * (1 - 1920 / (w + 1920))) := by
  have h1920 : (0 : ℚ) < pw + 1920 := by linarith
  have hiff : (ps + dur * (pw / (pw + 1920)) < s) ↔ (pw < (s - ps) * ((pw + 1920) / dur)) := by
    constructor
    · intro h
      have h' : dur * pw / (pw + 1920) < s - ps := by
        have e : dur * (pw / (pw + 1920)) = dur * pw / (pw + 1920) := by ring
        linarith [e ▸ h]
      have h'' : dur * pw < (s - ps) * (pw + 1920) := (div_lt_iff₀ h1920).mp h'
      rw [show (s - ps) * ((pw + 1920) / dur) = (s - ps) * (pw + 1920) / dur by ring]
      exact (lt_div_iff₀ hd).mpr (by linarith)
    · intro h
      rw [show (s - ps) * ((pw + 1920) / dur) = (s - ps) * (pw + 1920) / dur by ring] at h
      have h'' : pw * dur < (s - ps) * (pw + 1920) := (lt_div_iff₀ hd).mp h
      have h' : dur * pw / (pw + 1920) < s - ps := (div_lt_iff₀ h1920).mpr (by linarith)
      have e : dur * (pw / (pw + 1920)) = dur * pw / (pw + 1920) := by ring
      linarith [e ▸ h']
  simp only [predS, Bool.and_eq_true, decide_eq_true_eq]
  rw [hiff]

/-- Witness for `c2_theorem` at `dur = 25`, `(ps, pw) = (0, 0)`, `s = 1`, `w = 0`. -/
theorem c2_theorem_witness :
    (0 : ℚ) < 25 ∧ (0 : ℚ) ≤ 0 ∧
      (predS 25 (some (0, 0)) 1 (1 - 25 * (1 - 1920 / (0 + 1920))) = true ↔
        ((0 : ℚ) < (1 - 0) * ((0 + 1920) / 25) ∧ (0 : ℚ) < 1 - 25 * (1 - 1920 / (0 + 1920)))) :=
  ⟨by norm_num, le_refl 0, c2_theorem 25 0 0 1 0 (by norm_num) (le_refl 0)⟩

/-! ## C3 — the two fixed directions share one lane table -/

theorem evalFixed_step1 : allocStep cfg0 initState ⟨0, 4, 25, []⟩ =
    ⟨initState.scroll, writeBlock initState.fixed 0 60 5, [⟨4, 0, 25, 0⟩]⟩ := by
  rw [allocStep]
  norm_num [firstHit, cands_cfg0, List.find?, initState, predF, hN_cfg0, dispH_cfg0,
    show cfg0.stop = 5 from rfl]

theorem evalFixed_step2 :
    allocStep cfg0 ⟨initState.scroll, writeBlock initState.fixed 0 60 5, [⟨4, 0, 25, 0⟩]⟩
      ⟨1, 5, 25, []⟩ =
    ⟨initState.scroll, writeBlock (writeBlock initState.fixed 0 60 5) 64 124 6,
      [⟨4, 0, 25, 0⟩, ⟨5, 1, 25, 64⟩]⟩ := by
  rw [allocStep]
  have hfind : List.find?
      (fun r => predF ((writeBlock initState.fixed 0 60 5) r) 1)
      [0, 8, 16, 24, 32, 40, 48, 56, 64, 72, 80, 88, 96, 104, 112, 120, 128, 136, 144, 152] =
      some 64 := by
    rw [List.find?_cons_of_neg _ (by norm_num [predF, writeBlock, initState])]
    rw [List.find?_cons_of_neg _ (by norm_num [predF, writeBlock, initState])]
    rw [List.find?_cons_of_neg _ (by norm_num [predF, writeBlock, initState])]
    rw [List.find?_cons_of_neg _ (by norm_num [predF, writeBlock, initState])]
    rw [List.find?_cons_of_neg _ (by norm_num [predF, writeBlock, initState])]
    rw [List.find?_cons_of_neg _ (by norm_num [predF, writeBlock, initState])]
    rw [List.find?_cons_of_neg _ (by norm_num [predF, writeBlock, initState])]
    rw [List.find?_cons_of_neg _ (by norm_num [predF, writeBlock, initState])]
    rw [List.find?_cons_of_pos _ (by norm_num [predF, writeBlock, initState])]
  norm_num [firstHit, cands_cfg0, hfind, hN_cfg0, dispH_cfg0, show cfg0.stop = 5 from rfl]

theorem evalFixed_single : allocStep cfg0 initState ⟨1, 5, 25, []⟩ =
    ⟨initState.scroll, writeBlock initState.fixed 0 60 6, [⟨5, 1, 25, 0⟩]⟩ := by
  rw [allocStep]
  norm_num [firstHit, cands_cfg0, List.find?, initState, predF, hN_cfg0, dispH_cfg0,
    show cfg0.stop = 5 from rfl]

/-- C3, counterexample.  Under the default configuration, a BottomFixed
comment (mode 4, start 0) and a TopFixed comment (mode 5, start 1): with
the bottom comment present the top comment is allocated row 64, without it
row 0 — the two directions are *not* allocated from independent tables. -/
theorem c3_counterexample :
    (convertAlloc cfg0 [⟨0, 4, 25, []⟩, ⟨1, 5, 25, []⟩]).placed =
        [⟨4, 0, 25, 0⟩, ⟨5, 1, 25, 64⟩] ∧
    (convertAlloc cfg0 [⟨1, 5, 25, []⟩]).placed = [⟨5, 1, 25, 0⟩] ∧
    (64 : ℕ) ≠ 0 := by
  refine ⟨?_, ?_, by decide⟩
  · have hsort : sortDanmus [(⟨0, 4, 25, []⟩ : Danmu), ⟨1, 5, 25, []⟩] =
        [⟨0, 4, 25, []⟩, ⟨1, 5, 25, []⟩] := by
      norm_num [sortDanmus, insSorted]
    rw [convertAlloc, hsort, allocAll]
    rw [List.foldl_cons, evalFixed_step1, List.foldl_cons, evalFixed_step2, List.foldl_nil]
  · rw [convertAlloc, show sortDanmus [(⟨1, 5, 25, []⟩ : Danmu)] = [⟨1, 5, 25, []⟩] from rfl,
      allocAll, List.foldl_cons, evalFixed_single, List.foldl_nil]

/-- C3 (amended): TopFixed (mode 5) and BottomFixed (mode 4) are allocated
from one *shared* fixed lane table: a comment processed as mode 5 and the
same comment processed as mode 4 read and write the identical table, get
the identical row, and leave the scroll table untouched. -/
theorem c3_theorem (cfg : Config) (st : AllocState) (s w : ℚ) (t : Str) :
    (allocStep cfg st ⟨s, 5, w, t⟩).fixed = (allocStep cfg st ⟨s, 4, w, t⟩).fixed ∧
    (allocStep cfg st ⟨s, 5, w, t⟩).scroll = st.scroll ∧
    (allocStep cfg st ⟨s, 4, w, t⟩).scroll = st.scroll ∧
    (allocStep cfg st ⟨s, 5, w, t⟩).placed.map Placement.row =
      (allocStep cfg st ⟨s, 4, w, t⟩).placed.map Placement.row := by
  rw [allocStep, allocStep]
  cases hfind : firstHit (cands cfg) (fun r => predF (st.fixed r) s) <;> simp [hfind]

/-! ## C7 — color conversion -/

theorem opacity_hex_one : get_ass_opacity_hex 1 = ['0', '0'] := by
  have h : ⌊(255 : ℚ) * (1 - max 0 (min 1 1))⌋ = 0 := by norm_num
  rw [get_ass_opacity_hex, h]; decide

theorem color_red_eval : dec_to_ass_color 1 "16711680".toList = "&H000000ff".toList := by
  rw [dec_to_ass_color, show pyInt "16711680".toList = some 16711680 from by decide,
    opacity_hex_one]
  decide

/-- C7, counterexample.  Python `f"{…:06x}"` renders lowercase hex digits,
so the decimal color 16711680 (pure red) at opacity 1.0 produces
`&H000000ff`, not the claimed exact string `&H000000FF`. -/
theorem c7_counterexample :
    dec_to_ass_color 1 "16711680".toList ≠ "&H000000FF".toList := by
  rw [color_red_eval]; decide

/-- C7 (amended): color 16711680 (0xFF0000) at opacity 1.0 gives alpha
byte `00` and the exact output `&H000000ff` (alpha, then blue, green, red
byte pairs, lowercase hex); every color input that does not parse as an
integer falls back to white `FFFFFF` with the configured alpha byte. -/
theorem c7_theorem :
    dec_to_ass_color 1 "16711680".toList = "&H000000ff".toList ∧
    get_ass_opacity_hex 1 = ['0', '0'] ∧
    ∀ (op : ℚ) (s : Str), pyInt s = none →
      dec_to_ass_color op s = "&H".toList ++ get_ass_opacity_hex op ++ "FFFFFF".toList := by
  refine ⟨color_red_eval, opacity_hex_one, ?_⟩
  intro op s h
  rw [dec_to_ass_color, h]

/-- Witness for `c7_theorem` at the non-numeric color input `"abc"`. -/
theorem c7_theorem_witness :
    pyInt "abc".toList = none ∧
    dec_to_ass_color 1 "abc".toList = "&H".toList ++ get_ass_opacity_hex 1 ++ "FFFFFF".toList :=
  ⟨by decide, c7_theorem.2.2 1 "abc".toList (by decide)⟩

/-! ## C8 — time formatting -/

theorem format_time_zero : format_time 0 = "0:00:00.00".toList := by
  have h1 : ⌊(0 : ℚ) / 3600⌋ = 0 := by norm_num
  have h2 : ⌊pyMod (0 : ℚ) 3600 / 60⌋ = 0 := by norm_num [pyMod]
  have h3 : roundHE (100 * pyMod (0 : ℚ) 60) = 0 := by norm_num [pyMod, roundHE]
  rw [format_time_eval 0 le_rfl 0 0 0 h1 h2 h3]; decide

/-- C8: `format_time` renders `H:MM:SS.ss`; `0 → "0:00:00.00"`,
`3661.5 → "1:01:01.50"`, and every negative input is clamped to 0 first,
formatting exactly like 0. -/
theorem c8_theorem :
    format_time 0 = "0:00:00.00".toList ∧
    format_time 3661.5 = "1:01:01.50".toList ∧
    ∀ t : ℚ, t < 0 → format_time t = format_time 0 := by
  refine ⟨format_time_zero, ?_, ?_⟩
  · have hf : ⌊(3661.5 : ℚ) / 3600⌋ = 1 := by norm_num [Int.floor_eq_iff]
    have hm1 : pyMod (3661.5 : ℚ) 3600 = 61.5 := by norm_num [pyMod, hf]
    have h2 : ⌊pyMod (3661.5 : ℚ) 3600 / 60⌋ = 1 := by
      rw [hm1]; norm_num [Int.floor_eq_iff]
    have hf2 : ⌊(3661.5 : ℚ) / 60⌋ = 61 := by norm_num [Int.floor_eq_iff]
    have hm2 : pyMod (3661.5 : ℚ) 60 = 1.5 := by norm_num [pyMod, hf2]
    have h3 : roundHE (100 * pyMod (3661.5 : ℚ) 60) = 150 := by
      rw [hm2]; norm_num [roundHE]
    rw [format_time_eval 3661.5 (by norm_num) 1 1 150 hf h2 h3]; decide
  · intro t ht
    rw [format_time, format_time]
    simp only [max_eq_left ht.le, max_self]

/-- Witness for `c8_theorem` (negative clamping) at `t = -1`. -/
theorem c8_theorem_witness :
    (-1 : ℚ) < 0 ∧ format_time (-1) = format_time 0 :=
  ⟨by norm_num, c8_theorem.2.2 (-1) (by norm_num)⟩

/-! ## C1 — lane-table non-overlap invariant -/

theorem evalScroll_step1 : allocStep cfg0 initState ⟨0, 1, 25, ['a']⟩ =
    ⟨writeBlock initState.scroll 0 60 (0, 25), initState.fixed, [⟨1, 0, 25, 0⟩]⟩ := by
  rw [allocStep]
  norm_num [firstHit, cands_cfg0, List.find?, initState, predS, hN_cfg0, dispH_cfg0]

theorem evalScroll_step2 :
    allocStep cfg0 ⟨writeBlock initState.scroll 0 60 (0, 25), initState.fixed, [⟨1, 0, 25, 0⟩]⟩
      ⟨1, 1, 25, ['b']⟩ =
    ⟨writeBlock (writeBlock initState.scroll 0 60 (0, 25)) 0 60 (1, 25), initState.fixed,
      [⟨1, 0, 25, 0⟩, ⟨1, 1, 25, 0⟩]⟩ := by
  rw [allocStep]
  simp only [firstHit, cands_cfg0]
  rw [List.find?_cons_of_pos _ (by
    norm_num [predS, writeBlock, initState, show cfg0.duration = 25 from rfl])]
  norm_num [hN_cfg0, dispH_cfg0]

theorem evalScroll_run :
    (convertAlloc cfg0 [⟨0, 1, 25, ['a']⟩, ⟨1, 1, 25, ['b']⟩]).placed =
      [⟨1, 0, 25, 0⟩, ⟨1, 1, 25, 0⟩] := by
  have hsort : sortDanmus [(⟨0, 1, 25, ['a']⟩ : Danmu), ⟨1, 1, 25, ['b']⟩] =
      [⟨0, 1, 25, ['a']⟩, ⟨1, 1, 25, ['b']⟩] := by
    norm_num [sortDanmus, insSorted]
  rw [convertAlloc, hsort, allocAll]
  rw [List.foldl_cons, evalScroll_step1, List.foldl_cons, evalScroll_step2, List.foldl_nil]

/-- C1, counterexample.  Two one-character scroll comments at starts 0 and
1 under the default configuration are both allocated row 0 of the scroll
table (the reuse test only requires the earlier comment to have cleared
the spawn edge, not to have disappeared): their row ranges coincide and
their display intervals `[0, 25]` and `[1, 26]` intersect, so the claimed
pairwise property fails for comments of the scroll lane table. -/
theorem c1_counterexample :
    ¬ (((convertAlloc cfg0 [⟨0, 1, 25, ['a']⟩, ⟨1, 1, 25, ['b']⟩]).placed.filter
          isScroll).Pairwise
        (fun a b => rowsIntersect cfg0 a b → ¬ timesIntersect cfg0 a b)) := by
  rw [evalScroll_run, show ([⟨1, 0, 25, 0⟩, ⟨1, 1, 25, 0⟩] : List Placement).filter isScroll =
    [⟨1, 0, 25, 0⟩, ⟨1, 1, 25, 0⟩] from by decide]
  intro hp
  have h := (List.pairwise_cons.mp hp).1 ⟨1, 1, 25, 0⟩ (by simp)
  apply h
  · refine ⟨0, ?_⟩
    rw [hN_cfg0]
    norm_num
  · unfold timesIntersect lifespan
    rw [show isFixed ⟨1, 0, 25, 0⟩ = false from by decide,
      show isFixed ⟨1, 1, 25, 0⟩ = false from by decide]
    norm_num [show cfg0.duration = 25 from rfl]

theorem firstHit_split {l : List ℕ} {p : ℕ → Bool} {r : ℕ} (h : firstHit l p = some r) :
    r ∈ l ∧ p r = true ∧ ∃ pre post, l = pre ++ r :: post ∧ ∀ x ∈ pre, p x = false := by
  induction l with
  | nil => simp [firstHit] at h
  | cons a l ih =>
      rw [firstHit, List.find?_cons] at h
      rcases hpa : p a with _ | _
      · rw [hpa] at h
        simp only [cond_false] at h
        obtain ⟨hm, hp, pre, post, hsplit, hpre⟩ := ih h
        exact ⟨List.mem_cons_of_mem _ hm, hp, a :: pre, post, by rw [hsplit]; rfl, by
          intro x hx
          rcases List.mem_cons.mp hx with rfl | hx
          · exact hpa
          · exact hpre x hx⟩
      · rw [hpa] at h
        simp only [cond_true, Option.some.injEq] at h
        subst h
        exact ⟨List.mem_cons_self _ _, hpa, [], l, rfl, by simp⟩

theorem before_of_lt {l : List ℕ} (hs : l.Pairwise (· < ·)) {pre post : List ℕ} {r r' : ℕ}
    (hsplit : l = pre ++ r :: post) (hr' : r' ∈ l) (hlt : r' < r) : r' ∈ pre := by
  subst hsplit
  rcases List.mem_append.mp hr' with h | h
  · exact h
  · rcases List.mem_cons.mp h with rfl | h
    · omega
    · have hp := List.pairwise_cons.mp (List.pairwise_append.mp hs).2.1
      have := hp.1 r' h
      omega

theorem cands_sorted (cfg : Config) : (cands cfg).Pairwise (· < ·) := by
  rw [cands]
  exact (List.pairwise_lt_range _).map _ (fun a b hab => by omega)

theorem cands_row_lt {cfg : Config} {r : ℕ} (h : r ∈ cands cfg) :
    r < dispH cfg - hN cfg := by
  rw [cands] at h
  simp only [List.mem_map, List.mem_range] at h
  obtain ⟨k, hk, rfl⟩ := h
  have := Nat.div_mul_le_self (dispH cfg - hN cfg + 7) 8
  omega

theorem cands_min_eq {cfg : Config} {r : ℕ} (h : r ∈ cands cfg) :
    min (r + hN cfg) (dispH cfg) = r + hN cfg := by
  have := cands_row_lt h
  omega

/-- Invariant of the fixed lane table (`rows_top`) and the fixed placements
made so far, with `b` an upper bound on all placed start times. -/
structure FInv (cfg : Config) (st : AllocState) (b : ℚ) : Prop where
  rows_cand : ∀ p ∈ pf st, p.row ∈ cands cfg
  starts_le : ∀ p ∈ pf st, p.start ≤ b
  starts_nonneg : ∀ p ∈ pf st, 0 ≤ p.start
  geom : (pf st).Pairwise
    (fun a c => a.row = c.row ∨ a.row + hN cfg ≤ c.row ∨ c.row + hN cfg ≤ a.row)
  chain : (pf st).Pairwise (fun a c => a.row = c.row → a.start + cfg.stop < c.start)
  occ_mono : ∀ p ∈ pf st, ∀ c ∈ cands cfg, c < p.row → st.fixed c ≠ none
  cell_cover : ∀ i v, st.fixed i = some v →
    ∃ p ∈ pf st, (p.row ≤ i ∧ i < p.row + hN cfg) ∧ v = p.start + cfg.stop ∧
      ∀ q ∈ pf st, (q.row ≤ i ∧ i < q.row + hN cfg) → q.start + cfg.stop ≤ v
  cover_occ : ∀ p ∈ pf st, ∀ i, p.row ≤ i → i < p.row + hN cfg →
    ∃ v, st.fixed i = some v ∧ p.start + cfg.stop ≤ v
  uniform : ∀ p ∈ pf st, ∀ i j, p.row ≤ i → i < p.row + hN cfg →
    p.row ≤ j → j < p.row + hN cfg → st.fixed i = st.fixed j

theorem finv_init (cfg : Config) (b : ℚ) : FInv cfg initState b := by
  refine ⟨?_, ?_, ?_, ?_, ?_, ?_, ?_, ?_, ?_⟩ <;>
    simp [pf, initState]

theorem finv_mono {cfg st b b'} (h : FInv cfg st b) (hb : b ≤ b') : FInv cfg st b' :=
  { h with starts_le := fun p hp => le_trans (h.starts_le p hp) hb }

theorem pf_scroll {cfg st c} (h : c.mode = 1 ∨ c.mode = 2 ∨ c.mode = 3) :
    pf (allocStep cfg st c) = pf st ∧ (allocStep cfg st c).fixed = st.fixed := by
  rw [allocStep, if_pos h]
  cases hf : firstHit (cands cfg)
      (fun r => predS cfg.duration (st.scroll r) c.start
        (c.start - cfg.duration * (1 - 1920 / (c.w + 1920)))) with
  | none => exact ⟨rfl, rfl⟩
  | some r =>
      constructor
      · show (st.placed ++ [(⟨c.mode, c.start, c.w, r⟩ : Placement)]).filter isFixed = _
        rw [List.filter_append]
        have : isFixed (⟨c.mode, c.start, c.w, r⟩ : Placement) = false := by
          simp only [isFixed]
          rcases h with h | h | h <;> rw [h] <;> rfl
        simp [this, pf]
      · rfl

theorem pf_other {cfg st c} (h1 : ¬ (c.mode = 1 ∨ c.mode = 2 ∨ c.mode = 3))
    (h2 : ¬ (c.mode = 4 ∨ c.mode = 5)) : allocStep cfg st c = st := by
  rw [allocStep, if_neg h1, if_neg h2]

theorem finv_step {cfg : Config} {st : AllocState} {b : ℚ} {c : Danmu}
    (hinv : FInv cfg st b) (hb : b ≤ c.start) (hc0 : 0 ≤ c.start)
    (hstop : 0 < cfg.stop) (hh : 0 < hN cfg) :
    FInv cfg (allocStep cfg st c) c.start := by
  by_cases hm1 : c.mode = 1 ∨ c.mode = 2 ∨ c.mode = 3
  · obtain ⟨hpf, hfix⟩ := @pf_scroll cfg st c hm1
    have h' := finv_mono hinv hb
    exact { rows_cand := by rw [hpf]; exact h'.rows_cand
            starts_le := by rw [hpf]; exact h'.starts_le
            starts_nonneg := by rw [hpf]; exact h'.starts_nonneg
            geom := by rw [hpf]; exact h'.geom
            chain := by rw [hpf]; exact h'.chain
            occ_mono := by rw [hpf, hfix]; exact h'.occ_mono
            cell_cover := by rw [hpf, hfix]; exact h'.cell_cover
            cover_occ := by rw [hpf, hfix]; exact h'.cover_occ
            uniform := by rw [hpf, hfix]; exact h'.uniform }
  by_cases hm2 : c.mode = 4 ∨ c.mode = 5
  case neg => rw [pf_other hm1 hm2]; exact finv_mono hinv hb
  -- fixed branch
  rw [allocStep, if_neg hm1, if_pos hm2]
  cases hf : firstHit (cands cfg) (fun r => predF (st.fixed r) c.start) with
  | none => exact finv_mono hinv hb
  | some r =>
      obtain ⟨hrmem, hpr, pre, post, hsplit, hpre⟩ := firstHit_split hf
      have hmin : min (r + hN cfg) (dispH cfg) = r + hN cfg := cands_min_eq hrmem
      show FInv cfg ⟨st.scroll,
        writeBlock st.fixed r (min (r + hN cfg) (dispH cfg)) (c.start + cfg.stop),
        st.placed ++ [⟨c.mode, c.start, c.w, r⟩]⟩ c.start
      rw [hmin]
      have hfixnew : isFixed (⟨c.mode, c.start, c.w, r⟩ : Placement) = true := by
        simp only [isFixed]
        rcases hm2 with h | h <;> rw [h] <;> rfl
      have hpfnew : pf ⟨st.scroll, writeBlock st.fixed r (r + hN cfg) (c.start + cfg.stop),
          st.placed ++ [⟨c.mode, c.start, c.w, r⟩]⟩ =
          pf st ++ [(⟨c.mode, c.start, c.w, r⟩ : Placement)] := by
        show (st.placed ++ [(⟨c.mode, c.start, c.w, r⟩ : Placement)]).filter isFixed = _
        rw [List.filter_append]
        simp [pf, hfixnew]
      have key : (∀ q ∈ pf st, q.row = r → q.start + cfg.stop < c.start) ∧
          (∀ q ∈ pf st, q.row = r ∨ q.row + hN cfg ≤ r ∨ r + hN cfg ≤ q.row) := by
        cases hcell : st.fixed r with
        | none =>
            have hfar : ∀ q ∈ pf st, q.row + hN cfg ≤ r := by
              intro q hq
              by_cases hle : q.row ≤ r
              · by_contra hcon
                obtain ⟨v, hv, _⟩ := hinv.cover_occ q hq r hle (by omega)
                rw [hcell] at hv
                exact Option.noConfusion hv
              · push_neg at hle
                exact absurd hcell (hinv.occ_mono q hq r hrmem hle)
            constructor
            · intro q hq hqr
              have := hfar q hq
              omega
            · intro q hq
              exact Or.inr (Or.inl (hfar q hq))
        | some v =>
            obtain ⟨p0, hp0mem, hp0blk, hveq, hmax⟩ := hinv.cell_cover r v hcell
            have hvpos : 0 < v := by
              have := hinv.starts_nonneg p0 hp0mem
              rw [hveq]; linarith
            have hvlt : v < c.start := by
              rw [hcell] at hpr
              simp only [predF, Bool.or_eq_true, decide_eq_true_eq] at hpr
              rcases hpr with h0 | hlt
              · exact absurd h0 (by linarith)
              · exact hlt
            have hp0row : p0.row = r := by
              by_contra hne
              have hlt' : p0.row < r := by omega
              have hp0cand := hinv.rows_cand p0 hp0mem
              have hpre' : p0.row ∈ pre :=
                before_of_lt (cands_sorted cfg) hsplit hp0cand hlt'
              have hfail := hpre p0.row hpre'
              have huni := hinv.uniform p0 hp0mem p0.row r (le_refl _) (by omega)
                hp0blk.1 hp0blk.2
              rw [hcell] at huni
              rw [huni] at hfail
              simp only [predF, Bool.or_eq_true, decide_eq_true_eq] at hfail
              rcases Bool.or_eq_false_iff.mp hfail with ⟨h1, h2⟩
              rw [decide_eq_false_iff_not] at h2
              exact h2 hvlt
            constructor
            · intro q hq hqr
              have hle := hmax q hq (by omega)
              linarith
            · intro q hq
              by_cases hqp : q = p0
              · subst hqp
                exact Or.inl hp0row
              · have hsym : Symmetric (fun a c : Placement =>
                    a.row = c.row ∨ a.row + hN cfg ≤ c.row ∨ c.row + hN cfg ≤ a.row) := by
                  intro a c h
                  rcases h with h | h | h
                  · exact Or.inl h.symm
                  · exact Or.inr (Or.inr h)
                  · exact Or.inr (Or.inl h)
                have := hinv.geom.forall hsym hq hp0mem hqp
                rw [hp0row] at this
                exact this
      obtain ⟨hrel, hfar⟩ := key
      have hwin : ∀ i, r ≤ i → i < r + hN cfg →
          writeBlock st.fixed r (r + hN cfg) (c.start + cfg.stop) i =
            some (c.start + cfg.stop) := by
        intro i h1 h2
        exact if_pos ⟨h1, h2⟩
      have hwout : ∀ i, ¬ (r ≤ i ∧ i < r + hN cfg) →
          writeBlock st.fixed r (r + hN cfg) (c.start + cfg.stop) i = st.fixed i := by
        intro i h
        exact if_neg h
      refine ⟨?_, ?_, ?_, ?_, ?_, ?_, ?_, ?_, ?_⟩ <;> dsimp only
      · -- rows_cand
        intro p hp
        rw [hpfnew] at hp
        rcases List.mem_append.mp hp with hp | hp
        · exact hinv.rows_cand p hp
        · rw [List.mem_singleton.mp hp]
          exact hrmem
      · -- starts_le
        intro p hp
        rw [hpfnew] at hp
        rcases List.mem_append.mp hp with hp | hp
        · exact le_trans (hinv.starts_le p hp) hb
        · rw [List.mem_singleton.mp hp]
      · -- starts_nonneg
        intro p hp
        rw [hpfnew] at hp
        rcases List.mem_append.mp hp with hp | hp
        · exact hinv.starts_nonneg p hp
        · rw [List.mem_singleton.mp hp]
          exact hc0
      · -- geom
        rw [hpfnew]
        rw [List.pairwise_append]
        refine ⟨hinv.geom, List.pairwise_singleton _ _, ?_⟩
        intro q hq p' hp'
        rw [List.mem_singleton.mp hp']
        exact hfar q hq
      · -- chain
        rw [hpfnew]
        rw [List.pairwise_append]
        refine ⟨hinv.chain, List.pairwise_singleton _ _, ?_⟩
        intro q hq p' hp'
        rw [List.mem_singleton.mp hp']
        exact hrel q hq
      · -- occ_mono
        intro p hp c' hc' hlt
        rw [hpfnew] at hp
        by_cases hi : r ≤ c' ∧ c' < r + hN cfg
        · rw [hwin c' hi.1 hi.2]
          exact Option.noConfusion
        · rw [hwout c' hi]
          rcases List.mem_append.mp hp with hp | hp
          · exact hinv.occ_mono p hp c' hc' hlt
          · rw [List.mem_singleton.mp hp] at hlt
            have hpre' : c' ∈ pre := before_of_lt (cands_sorted cfg) hsplit hc' hlt
            have hfail := hpre c' hpre'
            intro hnone
            rw [hnone] at hfail
            simp [predF] at hfail
      · -- cell_cover
        intro i v' hv'
        by_cases hi : r ≤ i ∧ i < r + hN cfg
        · rw [hwin i hi.1 hi.2] at hv'
          have hv'eq : v' = c.start + cfg.stop := (Option.some.inj hv').symm
          refine ⟨⟨c.mode, c.start, c.w, r⟩, ?_, ⟨hi.1, hi.2⟩, hv'eq, ?_⟩
          · rw [hpfnew]
            exact List.mem_append_right _ (List.mem_singleton_self _)
          · intro q hq hqblk
            rw [hpfnew] at hq
            rcases List.mem_append.mp hq with hq | hq
            · rcases hfar q hq with heq | hle | hle
              · have := hrel q hq heq
                rw [hv'eq]
                linarith
              · omega
              · omega
            · rw [List.mem_singleton.mp hq, hv'eq]
        · rw [hwout i hi] at hv'
          obtain ⟨p', hp', hblk', heq', hmax'⟩ := hinv.cell_cover i v' hv'
          refine ⟨p', ?_, hblk', heq', ?_⟩
          · rw [hpfnew]
            exact List.mem_append_left _ hp'
          · intro q hq hqblk
            rw [hpfnew] at hq
            rcases List.mem_append.mp hq with hq | hq
            · exact hmax' q hq hqblk
            · rw [List.mem_singleton.mp hq] at hqblk
              exact absurd hqblk hi
      · -- cover_occ
        intro p hp i h1 h2
        rw [hpfnew] at hp
        rcases List.mem_append.mp hp with hp | hp
        · by_cases hi : r ≤ i ∧ i < r + hN cfg
          · refine ⟨c.start + cfg.stop, hwin i hi.1 hi.2, ?_⟩
            have := hinv.starts_le p hp
            linarith
          · obtain ⟨v, hv, hle⟩ := hinv.cover_occ p hp i h1 h2
            exact ⟨v, by rw [hwout i hi]; exact hv, hle⟩
        · have hpeq := List.mem_singleton.mp hp
          subst hpeq
          exact ⟨c.start + cfg.stop, hwin i h1 h2, le_refl _⟩
      · -- uniform
        intro p hp i j hi1 hi2 hj1 hj2
        rw [hpfnew] at hp
        rcases List.mem_append.mp hp with hp | hp
        · rcases hfar p hp with heq | hle | hle
          · rw [heq] at hi1 hi2 hj1 hj2
            rw [hwin i hi1 hi2, hwin j hj1 hj2]
          · rw [hwout i (by omega), hwout j (by omega)]
            exact hinv.uniform p hp i j hi1 hi2 hj1 hj2
          · rw [hwout i (by omega), hwout j (by omega)]
            exact hinv.uniform p hp i j hi1 hi2 hj1 hj2
        · have hpeq := List.mem_singleton.mp hp
          subst hpeq
          rw [hwin i hi1 hi2, hwin j hj1 hj2]

theorem finv_fold {cfg : Config} (hstop : 0 < cfg.stop) (hh : 0 < hN cfg)
    (l : List Danmu) :
    ∀ (st : AllocState) (b : ℚ),
      l.Pairwise (fun a c => a.start ≤ c.start) →
      (∀ d ∈ l, 0 ≤ d.start) → (∀ d ∈ l, b ≤ d.start) →
      FInv cfg st b → ∃ b', FInv cfg (l.foldl (allocStep cfg) st) b' := by
  induction l with
  | nil => exact fun st b _ _ _ hinv => ⟨b, hinv⟩
  | cons c cs ih =>
      intro st b hsort h0 hb hinv
      rw [List.foldl_cons]
      have hstep := finv_step hinv (hb c (List.mem_cons_self _ _))
        (h0 c (List.mem_cons_self _ _)) hstop hh
      exact ih _ c.start (List.pairwise_cons.mp hsort).2
        (fun d hd => h0 d (List.mem_cons_of_mem _ hd))
        (List.pairwise_cons.mp hsort).1 hstep

theorem mem_insSorted {c d : Danmu} {l : List Danmu} :
    d ∈ insSorted c l ↔ d = c ∨ d ∈ l := by
  induction l with
  | nil => simp [insSorted]
  | cons e es ih =>
      rw [insSorted]
      by_cases h : c.start ≤ e.start
      · rw [if_pos h]
        simp [List.mem_cons]
      · rw [if_neg h]
        simp only [List.mem_cons, ih]
        tauto

theorem insSorted_pairwise {c : Danmu} {l : List Danmu}
    (h : l.Pairwise (fun a b => a.start ≤ b.start)) :
    (insSorted c l).Pairwise (fun a b => a.start ≤ b.start) := by
  induction l with
  | nil => simp [insSorted]
  | cons e es ih =>
      rw [insSorted]
      obtain ⟨he, hes⟩ := List.pairwise_cons.mp h
      by_cases hc : c.start ≤ e.start
      · rw [if_pos hc]
        refine List.pairwise_cons.mpr ⟨?_, h⟩
        intro d hd
        rcases List.mem_cons.mp hd with rfl | hd
        · exact hc
        · exact le_trans hc (he d hd)
      · rw [if_neg hc]
        refine List.pairwise_cons.mpr ⟨?_, ih hes⟩
        intro d hd
        rcases mem_insSorted.mp hd with rfl | hd
        · exact le_of_not_le hc
        · exact he d hd

theorem sortDanmus_pairwise (l : List Danmu) :
    (sortDanmus l).Pairwise (fun a b => a.start ≤ b.start) := by
  induction l with
  | nil => simp [sortDanmus]
  | cons c cs ih => exact insSorted_pairwise ih

theorem mem_sortDanmus {l : List Danmu} {d : Danmu} : d ∈ sortDanmus l ↔ d ∈ l := by
  induction l with
  | nil => simp [sortDanmus]
  | cons c cs ih =>
      rw [sortDanmus, mem_insSorted, ih, List.mem_cons]

/-- C1 (amended): for every input comment list and configuration with
nonnegative start times and positive dwell duration, no two comments
allocated from the *shared fixed* lane table have intersecting allocated
row ranges while their display intervals intersect.  (The analogous
statement for the scroll table is false, see the counterexample.) -/
theorem c1_theorem (cfg : Config) (l : List Danmu)
    (h0 : ∀ d ∈ l, 0 ≤ d.start) (hstop : 0 < cfg.stop) :
    ((convertAlloc cfg l).placed.filter isFixed).Pairwise
      (fun a b => rowsIntersect cfg a b → ¬ timesIntersect cfg a b) := by
  by_cases hh : hN cfg = 0
  · refine List.pairwise_of_forall ?_
    intro a b hrow
    obtain ⟨i, ⟨h1, h2⟩, _⟩ := hrow
    rw [hh] at h2
    omega
  · have hpos : 0 < hN cfg := Nat.pos_of_ne_zero hh
    have hsorted := sortDanmus_pairwise l
    have h0' : ∀ d ∈ sortDanmus l, 0 ≤ d.start := fun d hd => h0 d (mem_sortDanmus.mp hd)
    obtain ⟨b', hinv⟩ := finv_fold hstop hpos (sortDanmus l) initState 0 hsorted h0' h0'
      (finv_init cfg 0)
    have hcomb := hinv.geom.and hinv.chain
    show (pf ((sortDanmus l).foldl (allocStep cfg) initState)).Pairwise _
    refine List.Pairwise.imp_of_mem ?_ hcomb
    rintro a c ha hc' ⟨hg, hc⟩ hrow
    obtain ⟨i, ⟨hai1, hai2⟩, hci1, hci2⟩ := hrow
    have hrow_eq : a.row = c.row := by
      rcases hg with h | h | h
      · exact h
      · omega
      · omega
    have htime := hc hrow_eq
    intro ht
    have hfa : isFixed a = true := (List.mem_filter.mp ha).2
    have hfc : isFixed c = true := (List.mem_filter.mp hc').2
    rw [timesIntersect, lifespan, lifespan, if_pos hfa, if_pos hfc] at ht
    have h1 : c.start ≤ max a.start c.start := le_max_right _ _
    have h2 : min (a.start + cfg.stop) (c.start + cfg.stop) ≤ a.start + cfg.stop :=
      min_le_left _ _
    linarith

/-- Witness for `c1_theorem`: one BottomFixed comment under the default
configuration. -/
theorem c1_theorem_witness :
    (∀ d ∈ [(⟨0, 4, 25, []⟩ : Danmu)], 0 ≤ d.start) ∧ (0 : ℚ) < cfg0.stop ∧
      ((convertAlloc cfg0 [⟨0, 4, 25, []⟩]).placed.filter isFixed).Pairwise
        (fun a b => rowsIntersect cfg0 a b → ¬ timesIntersect cfg0 a b) := by
  have h1 : ∀ d ∈ [(⟨0, 4, 25, []⟩ : Danmu)], 0 ≤ d.start := by
    intro d hd
    rw [List.mem_singleton.mp hd]
  have h2 : (0 : ℚ) < cfg0.stop := by norm_num [cfg0]
  exact ⟨h1, h2, c1_theorem cfg0 _ h1 h2⟩

/-! ## C4, C5 — orchestrator retry and circuit breaking -/

theorem itemGo_allfail (fetch : ℕ → Except Unit Str) (conv : Str → Option Str)
    (saveAss : Bool) (retries : List ℕ) (hne : retries ≠ [])
    (hfail : ∀ k ∈ retries, fetch k = .error ()) :
    itemGo fetch conv saveAss retries =
      ⟨retries.length, List.replicate (retries.length - 1) 2, none, true⟩ := by
  induction retries with
  | nil => exact absurd rfl hne
  | cons r rest ih =>
      cases rest with
      | nil =>
          rw [itemGo, hfail r (List.mem_cons_self _ _)]
          rfl
      | cons r2 rest2 =>
          rw [itemGo, hfail r (List.mem_cons_self _ _)]
          dsimp only
          rw [ih (List.cons_ne_nil _ _) (fun k hk => hfail k (List.mem_cons_of_mem _ hk))]
          simp [List.replicate_succ]
          all_goals exact List.cons_ne_nil _ _

theorem itemGo_allbad (fetch : ℕ → Except Unit Str) (conv : Str → Option Str)
    (saveAss : Bool) (retries : List ℕ) (hne : retries ≠ [])
    (hbad : ∀ k ∈ retries, ∃ x, fetch k = .ok x ∧ truthy (contentOf saveAss conv x) = false) :
    itemGo fetch conv saveAss retries =
      ⟨retries.length, List.replicate (retries.length - 1) 2, none, false⟩ := by
  induction retries with
  | nil => exact absurd rfl hne
  | cons r rest ih =>
      obtain ⟨x, hx, hbadx⟩ := hbad r (List.mem_cons_self _ _)
      cases rest with
      | nil =>
          rw [itemGo, hx]
          simp [hbadx]
      | cons r2 rest2 =>
          rw [itemGo, hx]
          simp only [hbadx, if_false, Bool.false_eq_true]
          rw [ih (List.cons_ne_nil _ _) (fun k hk => hbad k (List.mem_cons_of_mem _ hk))]
          simp [List.replicate_succ]
          all_goals exact List.cons_ne_nil _ _

theorem itemGo_goodhead (fetch : ℕ → Except Unit Str) (conv : Str → Option Str)
    (saveAss : Bool) (r : ℕ) (rest : List ℕ) (x : Str) (hx : fetch r = .ok x)
    (hgood : truthy (contentOf saveAss conv x) = true) :
    itemGo fetch conv saveAss (r :: rest) = ⟨1, [], contentOf saveAss conv x, false⟩ := by
  cases rest with
  | nil => rw [itemGo, hx]; simp [hgood]
  | cons r2 rest2 =>
      rw [itemGo, hx]
      · simp [hgood]
      · exact List.cons_ne_nil _ _

theorem itemOutcome_allfail (fetch : ℕ → Except Unit Str) (conv : Str → Option Str)
    (saveAss : Bool) (hfail : ∀ k, fetch k = .error ()) :
    itemOutcome fetch conv saveAss = ⟨6, [2, 2, 2, 2, 2], none, true⟩ := by
  rw [itemOutcome, itemGo_allfail fetch conv saveAss _ (List.cons_ne_nil _ _)
    (fun k _ => hfail k)]
  rfl

theorem itemOutcome_allbad (fetch : ℕ → Except Unit Str) (conv : Str → Option Str)
    (saveAss : Bool)
    (hbad : ∀ k, ∃ x, fetch k = .ok x ∧ truthy (contentOf saveAss conv x) = false) :
    itemOutcome fetch conv saveAss = ⟨6, [2, 2, 2, 2, 2], none, false⟩ := by
  rw [itemOutcome, itemGo_allbad fetch conv saveAss _ (List.cons_ne_nil _ _)
    (fun k _ => hbad k)]
  rfl

/-- C5: a fetch collaborator that raises on every attempt for item `j`
(while the items before it succeed on their first attempt with truthy
content) makes the orchestrator perform exactly 6 fetch attempts on `j`
with a 2-second backoff before each of the 5 retries, add no artifact for
`j`, process none of the remaining items, and end the batch in the
(non-`completed`) `circuitBroken` state. -/
theorem c5_theorem (fetch : ℕ → ℕ → Except Unit Str) (conv : Str → Option Str)
    (saveAss : Bool) (pre : List ℕ) (j : ℕ) (rest : List ℕ)
    (hpre : ∀ i ∈ pre, ∃ x, fetch i 0 = .ok x ∧ truthy (contentOf saveAss conv x) = true)
    (hfail : ∀ k, fetch j k = .error ()) :
    j ∉ pre ∧
    ∃ recs, (runBatch fetch conv saveAss (pre ++ j :: rest)).records =
        recs ++ [(j, ⟨6, [2, 2, 2, 2, 2], none, true⟩)] ∧
      (∀ r ∈ recs, r.1 ∈ pre ∧ r.2.artifact ≠ none) ∧
      (runBatch fetch conv saveAss (pre ++ j :: rest)).state = BState.circuitBroken ∧
      ∀ e ∈ (runBatch fetch conv saveAss (pre ++ j :: rest)).artifacts, e.1 ∈ pre := by
  have hjpre : j ∉ pre := by
    intro hj
    obtain ⟨x, hx, _⟩ := hpre j hj
    rw [hfail 0] at hx
    exact Except.noConfusion hx
  refine ⟨hjpre, ?_⟩
  induction pre with
  | nil =>
      have hnil : runBatch fetch conv saveAss (j :: rest) =
          ⟨[(j, ⟨6, [2, 2, 2, 2, 2], none, true⟩)], [], .circuitBroken⟩ := by
        rw [runBatch, itemOutcome_allfail _ conv saveAss hfail]
        rfl
      refine ⟨[], ?_, by simp, ?_, ?_⟩
      · show (runBatch fetch conv saveAss (j :: rest)).records = _
        rw [hnil]
        rfl
      · show (runBatch fetch conv saveAss (j :: rest)).state = _
        rw [hnil]
      · intro e he
        rw [show ([] : List ℕ) ++ j :: rest = j :: rest from rfl, hnil] at he
        simp at he
  | cons i pre' ih =>
      obtain ⟨x, hx, hgood⟩ := hpre i (List.mem_cons_self _ _)
      have hout : itemOutcome (fetch i) conv saveAss =
          ⟨1, [], contentOf saveAss conv x, false⟩ := by
        rw [itemOutcome]
        exact itemGo_goodhead _ conv saveAss 0 _ x hx hgood
      obtain ⟨a, ha⟩ : ∃ a, contentOf saveAss conv x = some a := by
        cases hc : contentOf saveAss conv x with
        | none => rw [hc] at hgood; simp [truthy] at hgood
        | some a => exact ⟨a, rfl⟩
      obtain ⟨recs, hrecs, hrmem, hstate, hart⟩ :=
        ih (fun i' hi' => hpre i' (List.mem_cons_of_mem _ hi'))
          (fun hj => hjpre (List.mem_cons_of_mem _ hj))
      refine ⟨(i, ⟨1, [], contentOf saveAss conv x, false⟩) :: recs, ?_, ?_, ?_, ?_⟩
      · show (runBatch fetch conv saveAss (i :: (pre' ++ j :: rest))).records = _
        rw [runBatch, hout]
        dsimp only
        rw [ha]
        dsimp only
        rw [hrecs]
        rfl
      · intro r hr
        rcases List.mem_cons.mp hr with rfl | hr
        · exact ⟨List.mem_cons_self _ _, by rw [ha]; simp⟩
        · exact ⟨List.mem_cons_of_mem _ (hrmem r hr).1, (hrmem r hr).2⟩
      · show (runBatch fetch conv saveAss (i :: (pre' ++ j :: rest))).state = _
        rw [runBatch, hout]
        dsimp only
        rw [ha]
        dsimp only
        exact hstate
      · intro e he
        rw [List.cons_append] at he
        show e.1 ∈ i :: pre'
        have : (runBatch fetch conv saveAss (i :: (pre' ++ j :: rest))).artifacts =
            (i, a) :: (runBatch fetch conv saveAss (pre' ++ j :: rest)).artifacts := by
          rw [runBatch, hout]
          dsimp only
          rw [ha]
        rw [this] at he
        rcases List.mem_cons.mp he with rfl | he
        · exact List.mem_cons_self _ _
        · exact List.mem_cons_of_mem _ (hart e he)

/-- Witness for `c5_theorem`: an always-raising fetch collaborator, batch `[0, 1]`. -/
theorem c5_theorem_witness :
    (0 : ℕ) ∉ ([] : List ℕ) ∧
    ∃ recs, (runBatch (fun _ _ => .error ()) (fun _ => none) true ([] ++ 0 :: [1])).records =
        recs ++ [(0, ⟨6, [2, 2, 2, 2, 2], none, true⟩)] ∧
      (∀ r ∈ recs, r.1 ∈ ([] : List ℕ) ∧ r.2.artifact ≠ none) ∧
      (runBatch (fun _ _ => .error ()) (fun _ => none) true ([] ++ 0 :: [1])).state =
        BState.circuitBroken ∧
      ∀ e ∈ (runBatch (fun _ _ => .error ()) (fun _ => none) true ([] ++ 0 :: [1])).artifacts,
        e.1 ∈ ([] : List ℕ) :=
  c5_theorem (fun _ _ => .error ()) (fun _ => none) true [] 0 [1] (by simp) (fun _ => rfl)

/-- C4, counterexample.  With a fetch that always succeeds but content
that never converts, item 0 is fetched 6 times (not once), yields no
artifact, and item 1 is never processed: a conversion failure is *not*
terminal for the item alone. -/
theorem c4_counterexample :
    runBatch (fun _ _ => .ok "<x>".toList) (fun _ => none) true [0, 1] =
      ⟨[(0, ⟨6, [2, 2, 2, 2, 2], none, false⟩)], [], .abortedNoArtifact⟩ ∧
    (6 : ℕ) ≠ 1 ∧
    ∀ rec ∈ (runBatch (fun _ _ => .ok "<x>".toList) (fun _ => none) true [0, 1]).records,
      rec.1 ≠ 1 := by
  refine ⟨by decide, by decide, by decide⟩

/-- C4 (amended): for a batch item whose fetch always succeeds but whose
conversion always fails (falsy content), the retry loop consumes all 6
fetch attempts (with the 2-second backoff before each of the 5 retries),
the item yields no artifact, the explicit circuit-breaker branch is *not*
run (the batch ends `abortedNoArtifact`, not `circuitBroken`), and the
remaining items of the batch are *not* processed. -/
theorem c4_theorem (fetch : ℕ → ℕ → Except Unit Str) (conv : Str → Option Str)
    (saveAss : Bool) (pre : List ℕ) (j : ℕ) (rest : List ℕ)
    (hpre : ∀ i ∈ pre, ∃ x, fetch i 0 = .ok x ∧ truthy (contentOf saveAss conv x) = true)
    (hbad : ∀ k, ∃ x, fetch j k = .ok x ∧ truthy (contentOf saveAss conv x) = false) :
    j ∉ pre ∧
    ∃ recs, (runBatch fetch conv saveAss (pre ++ j :: rest)).records =
        recs ++ [(j, ⟨6, [2, 2, 2, 2, 2], none, false⟩)] ∧
      (∀ r ∈ recs, r.1 ∈ pre ∧ r.2.artifact ≠ none) ∧
      (runBatch fetch conv saveAss (pre ++ j :: rest)).state = BState.abortedNoArtifact ∧
      ∀ e ∈ (runBatch fetch conv saveAss (pre ++ j :: rest)).artifacts, e.1 ∈ pre := by
  have hjpre : j ∉ pre := by
    intro hj
    obtain ⟨x1, hx1, hg⟩ := hpre j hj
    obtain ⟨x2, hx2, hb⟩ := hbad 0
    rw [hx1] at hx2
    rw [Except.ok.inj hx2] at hg
    rw [hg] at hb
    exact Bool.noConfusion hb
  refine ⟨hjpre, ?_⟩
  induction pre with
  | nil =>
      have hnil : runBatch fetch conv saveAss (j :: rest) =
          ⟨[(j, ⟨6, [2, 2, 2, 2, 2], none, false⟩)], [], .abortedNoArtifact⟩ := by
        rw [runBatch, itemOutcome_allbad _ conv saveAss hbad]
        rfl
      refine ⟨[], ?_, by simp, ?_, ?_⟩
      · show (runBatch fetch conv saveAss (j :: rest)).records = _
        rw [hnil]
        rfl
      · show (runBatch fetch conv saveAss (j :: rest)).state = _
        rw [hnil]
      · intro e he
        rw [show ([] : List ℕ) ++ j :: rest = j :: rest from rfl, hnil] at he
        simp at he
  | cons i pre' ih =>
      obtain ⟨x, hx, hgood⟩ := hpre i (List.mem_cons_self _ _)
      have hout : itemOutcome (fetch i) conv saveAss =
          ⟨1, [], contentOf saveAss conv x, false⟩ := by
        rw [itemOutcome]
        exact itemGo_goodhead _ conv saveAss 0 _ x hx hgood
      obtain ⟨a, ha⟩ : ∃ a, contentOf saveAss conv x = some a := by
        cases hc : contentOf saveAss conv x with
        | none => rw [hc] at hgood; simp [truthy] at hgood
        | some a => exact ⟨a, rfl⟩
      obtain ⟨recs, hrecs, hrmem, hstate, hart⟩ :=
        ih (fun i' hi' => hpre i' (List.mem_cons_of_mem _ hi'))
          (fun hj => hjpre (List.mem_cons_of_mem _ hj))
      refine ⟨(i, ⟨1, [], contentOf saveAss conv x, false⟩) :: recs, ?_, ?_, ?_, ?_⟩
      · show (runBatch fetch conv saveAss (i :: (pre' ++ j :: rest))).records = _
        rw [runBatch, hout]
        dsimp only
        rw [ha]
        dsimp only
        rw [hrecs]
        rfl
      · intro r hr
        rcases List.mem_cons.mp hr with rfl | hr
        · exact ⟨List.mem_cons_self _ _, by rw [ha]; simp⟩
        · exact ⟨List.mem_cons_of_mem _ (hrmem r hr).1, (hrmem r hr).2⟩
      · show (runBatch fetch conv saveAss (i :: (pre' ++ j :: rest))).state = _
        rw [runBatch, hout]
        dsimp only
        rw [ha]
        dsimp only
        exact hstate
      · intro e he
        rw [List.cons_append] at he
        show e.1 ∈ i :: pre'
        have harts : (runBatch fetch conv saveAss (i :: (pre' ++ j :: rest))).artifacts =
            (i, a) :: (runBatch fetch conv saveAss (pre' ++ j :: rest)).artifacts := by
          rw [runBatch, hout]
          dsimp only
          rw [ha]
        rw [harts] at he
        rcases List.mem_cons.mp he with rfl | he
        · exact List.mem_cons_self _ _
        · exact List.mem_cons_of_mem _ (hart e he)

/-- Witness for `c4_theorem`: fetch always returns unconvertible content, batch `[0, 1]`. -/
theorem c4_theorem_witness :
    (0 : ℕ) ∉ ([] : List ℕ) ∧
    ∃ recs, (runBatch (fun _ _ => .ok "<x>".toList) (fun _ => none) true ([] ++ 0 :: [1])).records =
        recs ++ [(0, ⟨6, [2, 2, 2, 2, 2], none, false⟩)] ∧
      (∀ r ∈ recs, r.1 ∈ ([] : List ℕ) ∧ r.2.artifact ≠ none) ∧
      (runBatch (fun _ _ => .ok "<x>".toList) (fun _ => none) true ([] ++ 0 :: [1])).state =
        BState.abortedNoArtifact ∧
      ∀ e ∈ (runBatch (fun _ _ => .ok "<x>".toList) (fun _ => none) true ([] ++ 0 :: [1])).artifacts,
        e.1 ∈ ([] : List ℕ) :=
  c4_theorem (fun _ _ => .ok "<x>".toList) (fun _ => none) true [] 0 [1] (by simp)
    (fun _ => ⟨"<x>".toList, rfl, rfl⟩)

/-! ## C6 helper lemmas -/

theorem digitChar_isDigit : ∀ m < 10, (digitChar m).isDigit = true := by decide

theorem digitChar_toNat : ∀ m < 10, (digitChar m).toNat - 48 = m := by decide

theorem digitsAux10_spec : ∀ fuel n : ℕ, n ≤ fuel →
    (∀ c ∈ digitsAux 10 digitChar fuel n, c.isDigit = true) ∧
    valOfDigits (digitsAux 10 digitChar fuel n) = n := by
  intro fuel
  induction fuel with
  | zero =>
      intro n hn
      interval_cases n
      exact ⟨by decide, by decide⟩
  | succ fuel ih =>
      intro n hn
      rw [digitsAux]
      by_cases h10 : n < 10
      · rw [if_pos h10]
        refine ⟨?_, ?_⟩
        · intro c hc
          rw [List.mem_singleton.mp hc]
          exact digitChar_isDigit n h10
        · show 10 * 0 + ((digitChar n).toNat - 48) = n
          rw [digitChar_toNat n h10]
          omega
      · rw [if_neg h10]
        have hdiv : n / 10 ≤ fuel := by
          have := Nat.div_lt_self (show 0 < n by omega) (show 1 < 10 by omega)
          omega
        obtain ⟨ihd, ihv⟩ := ih (n / 10) hdiv
        refine ⟨?_, ?_⟩
        · intro c hc
          rcases List.mem_append.mp hc with hc | hc
          · exact ihd c hc
          · rw [List.mem_singleton.mp hc]
            exact digitChar_isDigit _ (Nat.mod_lt _ (by omega))
        · rw [valOfDigits, List.foldl_append]
          show 10 * valOfDigits (digitsAux 10 digitChar fuel (n / 10)) +
            ((digitChar (n % 10)).toNat - 48) = n
          rw [ihv, digitChar_toNat _ (Nat.mod_lt _ (by omega))]
          omega

theorem natDigits_spec (n : ℕ) :
    (∀ c ∈ natDigits n, c.isDigit = true) ∧ valOfDigits (natDigits n) = n :=
  digitsAux10_spec n n le_rfl

theorem digitsAux_ne_nil (b : ℕ) (dig : ℕ → Char) :
    ∀ fuel n, digitsAux b dig fuel n ≠ [] := by
  intro fuel n
  cases fuel with
  | zero => exact List.cons_ne_nil _ _
  | succ fuel =>
      rw [digitsAux]
      by_cases h : n < b
      · rw [if_pos h]; exact List.cons_ne_nil _ _
      · rw [if_neg h]
        intro hcon
        exact absurd (List.append_eq_nil.mp hcon).2 (List.cons_ne_nil _ _)

theorem isDigit_not_ws {c : Char} (h : c.isDigit = true) : c.isWhitespace = false := by
  by_contra hws
  rw [Bool.not_eq_false] at hws
  simp only [Char.isWhitespace, Bool.or_eq_true, decide_eq_true_eq] at hws
  rcases hws with ((rfl | rfl) | rfl) | rfl <;> exact absurd h (by decide)

theorem dropWhile_nows {s : Str} (h : ∀ c ∈ s, c.isWhitespace = false) :
    s.dropWhile Char.isWhitespace = s := by
  cases s with
  | nil => rfl
  | cons c cs =>
      rw [List.dropWhile_cons, h c (List.mem_cons_self _ _)]
      simp

theorem trimStr_nows {s : Str} (h : ∀ c ∈ s, c.isWhitespace = false) : trimStr s = s := by
  rw [trimStr, trimL, dropWhile_nows h,
    dropWhile_nows (fun c hc => h c (List.mem_reverse.mp hc)), List.reverse_reverse]

theorem splitOnChar_ne_nil (sep : Char) (s : Str) : splitOnChar sep s ≠ [] := by
  cases s with
  | nil => exact List.cons_ne_nil _ _
  | cons c cs =>
      rw [splitOnChar]
      cases splitOnChar sep cs with
      | nil => exact List.cons_ne_nil _ _
      | cons h t =>
          dsimp only
          by_cases hc : c = sep
          · rw [if_pos hc]; exact List.cons_ne_nil _ _
          · rw [if_neg hc]; exact List.cons_ne_nil _ _

theorem splitOnChar_not_mem {sep : Char} {xs : Str} (h : sep ∉ xs) :
    splitOnChar sep xs = [xs] := by
  induction xs with
  | nil => rfl
  | cons c cs ih =>
      rw [splitOnChar, ih (fun hc => h (List.mem_cons_of_mem _ hc))]
      dsimp only
      rw [if_neg (fun hc : c = sep => h (hc ▸ List.mem_cons_self _ _))]

theorem splitOnChar_append {sep : Char} {xs ys : Str} (h : sep ∉ xs) :
    splitOnChar sep (xs ++ sep :: ys) = xs :: splitOnChar sep ys := by
  induction xs with
  | nil =>
      show splitOnChar sep (sep :: ys) = [] :: splitOnChar sep ys
      rw [splitOnChar]
      cases hys : splitOnChar sep ys with
      | nil => exact absurd hys (splitOnChar_ne_nil sep ys)
      | cons h t => dsimp only; rw [if_pos rfl]
  | cons c cs ih =>
      show splitOnChar sep (c :: (cs ++ sep :: ys)) = (c :: cs) :: splitOnChar sep ys
      rw [splitOnChar, ih (fun hc => h (List.mem_cons_of_mem _ hc))]
      cases hys : splitOnChar sep ys with
      | nil => exact absurd hys (splitOnChar_ne_nil sep ys)
      | cons hh tt =>
          dsimp only
          rw [if_neg (fun hc : c = sep => h (hc ▸ List.mem_cons_self _ _))]

theorem pyInt_natDigits (a : ℕ) : pyInt (natDigits a) = some (a : ℤ) := by
  obtain ⟨hd, hv⟩ := natDigits_spec a
  rw [pyInt]
  simp only
  rw [trimStr_nows (fun c hc => isDigit_not_ws (hd c hc))]
  split
  · next rest heq =>
      exfalso
      have := hd '+' (heq ▸ List.mem_cons_self _ _)
      exact absurd this (by decide)
  · next rest heq =>
      exfalso
      have := hd '-' (heq ▸ List.mem_cons_self _ _)
      exact absurd this (by decide)
  · have hall : allDigits (natDigits a) = true := by
      show (natDigits a).all Char.isDigit = true
      rw [List.all_eq_true]
      exact hd
    rw [if_pos ⟨digitsAux_ne_nil 10 digitChar a a, hall⟩, hv]

/-- C6, counterexample.  A partially out-of-bounds range is clipped, not
emptied: `"2-10"` against a 3-item list selects `[1, 2]`, while the claim
requires an out-of-bounds range to yield an empty selection. -/
theorem c6_counterexample :
    parseSelection "2-10".toList 3 = [1, 2] ∧ parseSelection "2-10".toList 3 ≠ [] := by
  refine ⟨by decide, by decide⟩

/-- C6 (amended): selection parsing maps `"0"` to all indices `0..n-1`;
`"A-B"` (1-based, inclusive) to the range *clipped* to the valid indices
(so only a fully out-of-bounds or empty range yields an empty selection);
a bare positive integer `k` to `[k-1]` when `1 ≤ k ≤ n` and to the empty
selection otherwise; and every other form (no hyphen and non-integer, a
hyphenated string without exactly two integer parts) to the empty
selection. -/
theorem c6_theorem :
    (∀ n : ℕ, parseSelection "0".toList n = List.range n) ∧
    (∀ a b n : ℕ, parseSelection (natDigits a ++ '-' :: natDigits b) n =
      (List.range n).filter (fun i => decide (a ≤ i + 1) && decide (i + 1 ≤ b))) ∧
    (∀ k n : ℕ, 0 < k →
      parseSelection (natDigits k) n = if k ≤ n then [k - 1] else []) ∧
    (∀ (s : Str) (n : ℕ), trimStr s ≠ ['0'] → (trimStr s).contains '-' = false →
      pyInt (trimStr s) = none → parseSelection s n = []) ∧
    (∀ (s : Str) (n : ℕ) (a b : Str), trimStr s ≠ ['0'] →
      (trimStr s).contains '-' = true → splitOnChar '-' (trimStr s) = [a, b] →
      pyInt a = none ∨ pyInt b = none → parseSelection s n = []) ∧
    (∀ (s : Str) (n : ℕ), trimStr s ≠ ['0'] → (trimStr s).contains '-' = true →
      (splitOnChar '-' (trimStr s)).length ≠ 2 → parseSelection s n = []) := by
  refine ⟨?_, ?_, ?_, ?_, ?_, ?_⟩
  · intro n
    rfl
  · intro a b n
    obtain ⟨hda, hva⟩ := natDigits_spec a
    obtain ⟨hdb, hvb⟩ := natDigits_spec b
    have hnws : ∀ c ∈ natDigits a ++ '-' :: natDigits b, c.isWhitespace = false := by
      intro c hc
      rcases List.mem_append.mp hc with hc | hc
      · exact isDigit_not_ws (hda c hc)
      · rcases List.mem_cons.mp hc with rfl | hc
        · decide
        · exact isDigit_not_ws (hdb c hc)
    have hne0 : natDigits a ++ '-' :: natDigits b ≠ ['0'] := by
      intro heq
      have hmem : '-' ∈ natDigits a ++ '-' :: natDigits b :=
        List.mem_append_right _ (List.mem_cons_self _ _)
      rw [heq] at hmem
      exact absurd (List.mem_singleton.mp hmem) (by decide)
    have hmem : '-' ∈ natDigits a ++ '-' :: natDigits b :=
      List.mem_append_right _ (List.mem_cons_self _ _)
    have hnomem : '-' ∉ natDigits a := fun hc => by
      have := hda '-' hc
      exact absurd this (by decide)
    rw [parseSelection]
    simp only [trimStr_nows hnws]
    rw [if_neg hne0, if_pos (List.elem_eq_true_of_mem hmem),
      splitOnChar_append hnomem, splitOnChar_not_mem (fun hc => by
        have := hdb '-' hc
        exact absurd this (by decide))]
    dsimp only
    rw [pyInt_natDigits a, pyInt_natDigits b]
    dsimp only
    refine List.filter_congr ?_
    intro i _
    apply Bool.eq_iff_iff.mpr
    simp only [decide_eq_true_eq, Bool.and_eq_true]
    omega
  · intro k n hk
    obtain ⟨hd, hv⟩ := natDigits_spec k
    have hnws : ∀ c ∈ natDigits k, c.isWhitespace = false :=
      fun c hc => isDigit_not_ws (hd c hc)
    have hne0 : natDigits k ≠ ['0'] := by
      intro heq
      rw [heq] at hv
      have h00 : valOfDigits ['0'] = 0 := by decide
      rw [h00] at hv
      omega
    have hnomem : (natDigits k).contains '-' = false := by
      by_contra hcon
      rw [Bool.not_eq_false] at hcon
      have := hd '-' (List.mem_of_elem_eq_true hcon)
      exact absurd this (by decide)
    rw [parseSelection]
    simp only [trimStr_nows hnws]
    rw [if_neg hne0, if_neg (by rw [hnomem]; exact Bool.false_ne_true),
      pyInt_natDigits k]
    dsimp only
    by_cases hkn : k ≤ n
    · rw [if_pos ⟨by exact_mod_cast hk, by exact_mod_cast hkn⟩, if_pos hkn]
      congr 1
      omega
    · rw [if_neg (fun hcon => hkn (by exact_mod_cast hcon.2)), if_neg hkn]
  · intro s n h0 hno hpy
    rw [parseSelection]
    rw [if_neg h0, if_neg (by rw [hno]; exact Bool.false_ne_true), hpy]
  · intro s n a b h0 hyes hsplit hfail
    rw [parseSelection]
    rw [if_neg h0, if_pos hyes, hsplit]
    dsimp only
    rcases hfail with hfail | hfail
    · rw [hfail]
    · cases ha : pyInt a with
      | none => rfl
      | some v => rw [hfail]
  · intro s n h0 hyes hlen
    rw [parseSelection]
    rw [if_neg h0, if_pos hyes]
    cases hsp : splitOnChar '-' (trimStr s) with
    | nil => rfl
    | cons a t =>
        cases t with
        | nil => rfl
        | cons b t2 =>
            cases t2 with
            | nil => exact absurd (by rw [hsp]; rfl) hlen
            | cons x t3 => rfl

/-- Witness for `c6_theorem`: concrete instances of each selection form. -/
theorem c6_theorem_witness :
    parseSelection "0".toList 4 = List.range 4 ∧
    parseSelection (natDigits 2 ++ '-' :: natDigits 10) 3 =
      (List.range 3).filter (fun i => decide (2 ≤ i + 1) && decide (i + 1 ≤ 10)) ∧
    ((0 : ℕ) < 3 ∧ parseSelection (natDigits 3) 5 = if 3 ≤ 5 then [3 - 1] else []) ∧
    (trimStr "x".toList ≠ ['0'] ∧ (trimStr "x".toList).contains '-' = false ∧
      pyInt (trimStr "x".toList) = none ∧ parseSelection "x".toList 5 = []) :=
  ⟨c6_theorem.1 4, c6_theorem.2.1 2 10 3,
    ⟨by norm_num, c6_theorem.2.2.1 3 5 (by norm_num)⟩,
    ⟨by decide, by decide, by decide,
      c6_theorem.2.2.2.1 "x".toList 5 (by decide) (by decide) (by decide)⟩⟩

/-! ## C10 — a malformed record aborts the whole document -/

/-- C10: a well-formed document containing one record whose positional
string has 4 fields but a non-numeric mode (`"1,x,3,4"`) alongside a
perfectly good record converts to `None` as a whole, while the same
document without the malformed record converts successfully: the blanket
`except` turns any per-record parse error into failure of the entire
conversion rather than dropping the bad record. -/
theorem c10_theorem :
    convertModel cfg0 [⟨some "1,x,3,4".toList, some "hi".toList⟩,
        ⟨some "2,1,0,16711680".toList, some "ok".toList⟩] = none ∧
    (convertModel cfg0 [⟨some "2,1,0,16711680".toList, some "ok".toList⟩]).isSome = true ∧
    convertModel cfg0 [⟨none, some "hi".toList⟩,
        ⟨some "2,1,0,16711680".toList, some "ok".toList⟩] = none :=
  ⟨by decide, by decide, by decide⟩

/-! ## C9 helper lemmas: `replaceAll` -/

theorem replaceAllAux_fuel (p r : Str) (hp : p ≠ []) :
    ∀ (f1 : ℕ), ∀ (s : Str) (f2 : ℕ), s.length ≤ f1 → s.length ≤ f2 →
      replaceAllAux p r f1 s = replaceAllAux p r f2 s := by
  have hp' : 0 < p.length := List.length_pos.mpr hp
  intro f1
  induction f1 with
  | zero =>
      intro s f2 h1 _
      have : s = [] := List.length_eq_zero.mp (by omega)
      subst this
      cases f2 <;> rfl
  | succ f1 ih =>
      intro s f2 h1 h2
      cases s with
      | nil => cases f2 <;> rfl
      | cons c cs =>
          cases f2 with
          | zero => simp at h2
          | succ f2 =>
              rw [replaceAllAux, replaceAllAux]
              have hl1 : cs.length ≤ f1 := by
                simp only [List.length_cons] at h1
                omega
              have hl2 : cs.length ≤ f2 := by
                simp only [List.length_cons] at h2
                omega
              by_cases hpre : p.isPrefixOf (c :: cs)
              · rw [if_pos hpre, if_pos hpre]
                have hlen : ((c :: cs).drop p.length).length ≤ cs.length := by
                  simp only [List.length_drop, List.length_cons]
                  omega
                rw [ih ((c :: cs).drop p.length) f2 (le_trans hlen hl1) (le_trans hlen hl2)]
              · rw [if_neg hpre, if_neg hpre]
                rw [ih cs f2 hl1 hl2]

theorem replaceAll_nil (p r : Str) : replaceAll p r [] = [] := by
  rw [replaceAll]
  split <;> rfl

theorem replaceAll_cons (p r : Str) (hp : p ≠ []) (c : Char) (cs : Str) :
    replaceAll p r (c :: cs) =
      if p.isPrefixOf (c :: cs) then r ++ replaceAll p r ((c :: cs).drop p.length)
      else c :: replaceAll p r cs := by
  rw [replaceAll, if_neg hp, replaceAll, if_neg hp, replaceAll, if_neg hp]
  rw [show (c :: cs).length = cs.length + 1 from rfl, replaceAllAux]
  by_cases hpre : p.isPrefixOf (c :: cs)
  · rw [if_pos hpre, if_pos hpre]
    have hp' : 0 < p.length := List.length_pos.mpr hp
    have : ((c :: cs).drop p.length).length ≤ cs.length := by
      simp only [List.length_drop, List.length_cons]
      omega
    rw [replaceAllAux_fuel p r hp cs.length ((c :: cs).drop p.length)
      ((c :: cs).drop p.length).length this le_rfl]
  · rw [if_neg hpre, if_neg hpre]

theorem containsSub_cons_false {c : Char} {cs p : Str} (h : containsSub (c :: cs) p = false) :
    p.isPrefixOf (c :: cs) = false ∧ containsSub cs p = false := by
  rw [containsSub, Bool.or_eq_false_iff] at h
  exact h

theorem replaceAll_not_contains {p r s : Str} (hp : p ≠ [])
    (h : containsSub s p = false) : replaceAll p r s = s := by
  induction s with
  | nil => exact replaceAll_nil p r
  | cons c cs ih =>
      obtain ⟨h1, h2⟩ := containsSub_cons_false h
      rw [replaceAll_cons p r hp, if_neg (by rw [h1]; exact Bool.false_ne_true), ih h2]

theorem isPrefixOf_mono {p x t : Str} (h : p.isPrefixOf x = true) :
    p.isPrefixOf (x ++ t) = true := by
  rw [List.isPrefixOf_iff_prefix] at h ⊢
  exact h.trans (List.prefix_append x t)

theorem prefix_split {p x t : Str} (h : p.isPrefixOf (x ++ t) = true) :
    p.isPrefixOf x = true ∨
    (x.length < p.length ∧ (p.drop x.length).isPrefixOf t = true) := by
  rw [List.isPrefixOf_iff_prefix] at h
  by_cases hlen : p.length ≤ x.length
  · left
    rw [List.isPrefixOf_iff_prefix]
    rcases List.prefix_or_prefix_of_prefix h (List.prefix_append x t) with h' | h'
    · exact h'
    · have := List.IsPrefix.eq_of_length_le h' (by omega)
      rw [this]
  · right
    refine ⟨by omega, ?_⟩
    obtain ⟨u, hu⟩ := h
    have hx : x <+: p := by
      rcases List.prefix_or_prefix_of_prefix (List.prefix_append x t) (⟨u, hu⟩ : p <+: x ++ t) with h' | h'
      · exact h'
      · have := List.IsPrefix.eq_of_length_le h' (by omega)
        rw [this]
    obtain ⟨v, hv⟩ := hx
    have hvdrop : p.drop x.length = v := by
      rw [← hv, List.drop_left]
    rw [List.isPrefixOf_iff_prefix, hvdrop]
    rw [← hv, List.append_assoc] at hu
    have := List.append_cancel_left hu
    exact ⟨u, this⟩

theorem not_prefix_of_head {p' : Str} {x : Char} {xs : Str} (hne : p' ≠ [])
    (hh : p'.head? ≠ some x) : p'.isPrefixOf (x :: xs) = false := by
  cases p' with
  | nil => exact absurd rfl hne
  | cons a as =>
      by_contra hcon
      rw [Bool.not_eq_false, List.isPrefixOf_iff_prefix] at hcon
      obtain ⟨u, hu⟩ := hcon
      rw [List.cons_append] at hu
      have : a = x := (List.cons.injEq _ _ _ _ ▸ hu).1
      exact hh (by rw [List.head?_cons, this])

theorem replaceAll_append_right (p r t : Str) (hp : p ≠ [])
    (ht : containsSub t p = false)
    (hstr : ∀ k, 0 < k → k < p.length → (p.drop k).isPrefixOf t = false) :
    ∀ s : Str, replaceAll p r (s ++ t) = replaceAll p r s ++ t
  | [] => by
      rw [List.nil_append, replaceAll_nil, List.nil_append,
        replaceAll_not_contains hp ht]
  | c :: cs => by
      have hp' : 0 < p.length := List.length_pos.mpr hp
      have hcc : (c :: cs) ++ t = c :: (cs ++ t) := List.cons_append c cs t
      rw [hcc, replaceAll_cons p r hp c (cs ++ t), replaceAll_cons p r hp c cs]
      by_cases hpre : p.isPrefixOf (c :: cs)
      · have hmono : p.isPrefixOf (c :: (cs ++ t)) = true := by
          rw [← hcc]
          exact isPrefixOf_mono hpre
        rw [if_pos hmono, if_pos hpre]
        have hlen : p.length ≤ (c :: cs).length := by
          rw [List.isPrefixOf_iff_prefix] at hpre
          exact hpre.length_le
        rw [← hcc, List.drop_append_of_le_length hlen]
        rw [replaceAll_append_right p r t hp ht hstr ((c :: cs).drop p.length)]
        rw [List.append_assoc]
      · have hpre2 : p.isPrefixOf (c :: (cs ++ t)) = false := by
          by_contra hcon
          rw [Bool.not_eq_false] at hcon
          have hcon' : p.isPrefixOf ((c :: cs) ++ t) = true := by
            rw [hcc]
            exact hcon
          rcases prefix_split hcon' with h' | ⟨hlen, hdrop⟩
          · exact hpre h'
          · have hh := hstr (c :: cs).length (by simp) hlen
            rw [hdrop] at hh
            exact Bool.noConfusion hh
        rw [if_neg (by rw [hpre2]; exact Bool.false_ne_true), if_neg hpre]
        rw [replaceAll_append_right p r t hp ht hstr cs, List.cons_append]
  termination_by s => s.length
  decreasing_by
  · simp only [List.length_drop, List.length_cons]
    omega
  · simp

theorem replaceAll_append_self (p r : Str) (hp : p ≠ [])
    (hstr : ∀ k, 0 < k → k < p.length → (p.drop k).isPrefixOf p = false) :
    ∀ s : Str, containsSub s p = false →
      replaceAll p r (s ++ p) = replaceAll p r s ++ r
  | [], _ => by
      rw [List.nil_append, replaceAll_nil, List.nil_append]
      cases p with
      | nil => exact absurd rfl hp
      | cons a as =>
          rw [replaceAll_cons _ r hp,
            if_pos (show (a :: as).isPrefixOf (a :: as) = true by
              rw [List.isPrefixOf_iff_prefix])]
          simp only [List.drop_length, replaceAll_nil, List.append_nil]
  | c :: cs, hs => by
      obtain ⟨h1, h2⟩ := containsSub_cons_false hs
      have hp' : 0 < p.length := List.length_pos.mpr hp
      have hcc : (c :: cs) ++ p = c :: (cs ++ p) := List.cons_append c cs p
      rw [hcc, replaceAll_cons p r hp c (cs ++ p), replaceAll_cons p r hp c cs]
      have hpre2 : p.isPrefixOf (c :: (cs ++ p)) = false := by
        by_contra hcon
        rw [Bool.not_eq_false] at hcon
        have hcon' : p.isPrefixOf ((c :: cs) ++ p) = true := by
          rw [hcc]
          exact hcon
        rcases prefix_split hcon' with h' | ⟨hlen, hdrop⟩
        · rw [h'] at h1
          exact Bool.noConfusion h1
        · have hh := hstr (c :: cs).length (by simp) hlen
          rw [hdrop] at hh
          exact Bool.noConfusion hh
      rw [if_neg (by rw [hpre2]; exact Bool.false_ne_true),
        if_neg (by rw [h1]; exact Bool.false_ne_true)]
      rw [replaceAll_append_self p r hp hstr cs h2, List.cons_append]

theorem containsSub_mono {s p q : Str} (h : containsSub s (p ++ q) = true) :
    containsSub s p = true := by
  induction s with
  | nil =>
      rw [containsSub] at h ⊢
      rw [List.isEmpty_iff] at h ⊢
      exact (List.append_eq_nil.mp h).1
  | cons c cs ih =>
      rw [containsSub, Bool.or_eq_true] at h ⊢
      rcases h with h | h
      · left
        rw [List.isPrefixOf_iff_prefix] at h ⊢
        exact (List.prefix_append p q).trans h
      · right
        exact ih h

theorem head_mem_of_containsSub {t p : Str} (h : containsSub t p = true)
    (x : Char) (hx : p.head? = some x) : x ∈ t := by
  induction t with
  | nil =>
      rw [containsSub, List.isEmpty_iff] at h
      rw [h] at hx
      exact Option.noConfusion hx
  | cons c cs ih =>
      rw [containsSub, Bool.or_eq_true] at h
      rcases h with h | h
      · cases p with
        | nil => exact Option.noConfusion hx
        | cons a as =>
            rw [List.isPrefixOf_iff_prefix] at h
            obtain ⟨u, hu⟩ := h
            rw [List.cons_append] at hu
            have ha : a = c := ((List.cons.injEq _ _ _ _).mp hu).1
            rw [List.head?_cons, Option.some.injEq] at hx
            rw [← hx, ha]
            exact List.mem_cons_self _ _
      · exact List.mem_cons_of_mem _ (ih h)

theorem containsSub_append_false {p t : Str}
    (hstr : ∀ k, 0 < k → k < p.length → (p.drop k).isPrefixOf t = false)
    (ht : containsSub t p = false) :
    ∀ {s' : Str}, containsSub s' p = false → containsSub (s' ++ t) p = false := by
  intro s' hs'
  induction s' with
  | nil => exact ht
  | cons c cs ih =>
      obtain ⟨h1, h2⟩ := containsSub_cons_false hs'
      rw [List.cons_append, containsSub, Bool.or_eq_false_iff]
      refine ⟨?_, ih h2⟩
      by_contra hcon
      rw [Bool.not_eq_false] at hcon
      have hcon' : p.isPrefixOf ((c :: cs) ++ t) = true := by
        rw [List.cons_append]
        exact hcon
      rcases prefix_split hcon' with h' | ⟨hlen, hdrop⟩
      · rw [h'] at h1
        exact Bool.noConfusion h1
      · have hh := hstr (c :: cs).length (by simp) hlen
        rw [hdrop] at hh
        exact Bool.noConfusion hh

theorem findSeqWidthsAux_empty :
    ∀ (fuel : ℕ) (s : Str), containsSub s ['[', '序', '号'] = false →
      findSeqWidthsAux fuel s = [] := by
  intro fuel
  induction fuel with
  | zero => intro s _; cases s <;> rfl
  | succ fuel ih =>
      intro s hs
      cases s with
      | nil => rfl
      | cons c cs =>
          obtain ⟨h1, h2⟩ := containsSub_cons_false hs
          rw [findSeqWidthsAux, if_neg (by rw [h1]; exact Bool.false_ne_true)]
          exact ih cs h2

theorem findSeqWidths_empty {s : Str} (h : containsSub s ['[', '序', '号'] = false) :
    findSeqWidths s = [] :=
  findSeqWidthsAux_empty s.length s h

theorem collapseWsAux_fuel :
    ∀ (f1 : ℕ) (s : Str) (f2 : ℕ), s.length ≤ f1 → s.length ≤ f2 →
      collapseWsAux f1 s = collapseWsAux f2 s := by
  intro f1
  induction f1 with
  | zero =>
      intro s f2 h1 _
      have : s = [] := List.length_eq_zero.mp (by omega)
      subst this
      cases f2 <;> rfl
  | succ f1 ih =>
      intro s f2 h1 h2
      cases s with
      | nil => cases f2 <;> rfl
      | cons c cs =>
          cases f2 with
          | zero => simp at h2
          | succ f2 =>
              rw [collapseWsAux, collapseWsAux]
              have hl1 : cs.length ≤ f1 := by
                simp only [List.length_cons] at h1
                omega
              have hl2 : cs.length ≤ f2 := by
                simp only [List.length_cons] at h2
                omega
              by_cases hws : c.isWhitespace
              · rw [if_pos hws, if_pos hws]
                have hlen : (cs.dropWhile Char.isWhitespace).length ≤ cs.length :=
                  (List.dropWhile_suffix _).length_le
                rw [ih _ f2 (le_trans hlen hl1) (le_trans hlen hl2)]
              · rw [if_neg hws, if_neg hws, ih cs f2 hl1 hl2]

theorem collapseWs_cons (c : Char) (cs : Str) :
    collapseWs (c :: cs) =
      if c.isWhitespace then ' ' :: collapseWs (cs.dropWhile Char.isWhitespace)
      else c :: collapseWs cs := by
  rw [collapseWs, show (c :: cs).length = cs.length + 1 from rfl, collapseWsAux]
  by_cases hws : c.isWhitespace
  · rw [if_pos hws, if_pos hws, collapseWs,
      collapseWsAux_fuel cs.length (cs.dropWhile Char.isWhitespace)
        (cs.dropWhile Char.isWhitespace).length (List.dropWhile_suffix _).length_le le_rfl]
  · rw [if_neg hws, if_neg hws]
    rfl

theorem collapseWs_nows : ∀ {s : Str}, (∀ c ∈ s, c.isWhitespace = false) →
    collapseWs s = s := by
  intro s
  induction s with
  | nil => intro _; rfl
  | cons c cs ih =>
      intro h
      rw [collapseWs_cons, if_neg (by rw [h c (List.mem_cons_self _ _)]; exact Bool.false_ne_true),
        ih (fun x hx => h x (List.mem_cons_of_mem _ hx))]

theorem dropWhile_nows_head {d : Str} (hd : d ≠ [])
    (hdc : ∀ c ∈ d, c.isWhitespace = false) :
    d.dropWhile Char.isWhitespace = d := by
  cases d with
  | nil => rfl
  | cons e es =>
      rw [List.dropWhile_cons,
        hdc e (List.mem_cons_self _ _)]
      simp

theorem collapseWs_append (d : Str) (hd : d ≠ [])
    (hdc : ∀ c ∈ d, c.isWhitespace = false) :
    ∀ s : Str, collapseWs (s ++ d) = collapseWs s ++ d
  | [] => by
      rw [List.nil_append, collapseWs_nows hdc]
      rfl
  | c :: cs => by
      rw [List.cons_append, collapseWs_cons, collapseWs_cons]
      by_cases hws : c.isWhitespace
      · rw [if_pos hws, if_pos hws, List.dropWhile_append]
        by_cases hemp : (cs.dropWhile Char.isWhitespace).isEmpty
        · rw [if_pos hemp, dropWhile_nows_head hd hdc]
          rw [List.isEmpty_iff] at hemp
          rw [hemp, collapseWs_nows hdc]
          rfl
        · rw [if_neg hemp]
          rw [collapseWs_append d hd hdc (cs.dropWhile Char.isWhitespace)]
          rfl
      · rw [if_neg hws, if_neg hws, collapseWs_append d hd hdc cs]
        rfl
  termination_by s => s.length
  decreasing_by
  · have := (@List.dropWhile_suffix Char cs Char.isWhitespace).length_le
    simp only [List.length_cons]
    omega
  · simp

theorem trimL_append_safe (y d : Str) (hd : d ≠ [])
    (hdc : ∀ c ∈ d, c.isWhitespace = false) :
    trimL (y ++ d) = trimL y ++ d := by
  rw [trimL, trimL, List.dropWhile_append]
  by_cases hemp : (y.dropWhile Char.isWhitespace).isEmpty
  · rw [if_pos hemp, dropWhile_nows_head hd hdc]
    rw [List.isEmpty_iff] at hemp
    rw [hemp]
    rfl
  · rw [if_neg hemp]

theorem trimStr_append_safe (y d : Str) (hd : d ≠ [])
    (hdc : ∀ c ∈ d, c.isWhitespace = false) :
    trimStr (y ++ d) = trimL y ++ d := by
  rw [trimStr, trimL_append_safe y d hd hdc, List.reverse_append]
  have hrev : d.reverse.dropWhile Char.isWhitespace ++ (trimL y).reverse.dropWhile
      Char.isWhitespace = d.reverse ++ (trimL y).reverse → True := fun _ => trivial
  have hne : d.reverse ≠ [] := fun hcon => hd (List.reverse_eq_nil_iff.mp hcon)
  have hdrop : (d.reverse ++ (trimL y).reverse).dropWhile Char.isWhitespace =
      d.reverse ++ (trimL y).reverse := by
    cases hdr : d.reverse with
    | nil => exact absurd hdr hne
    | cons e es =>
        rw [List.cons_append, List.dropWhile_cons,
          hdc e (by rw [← List.mem_reverse, hdr]; exact List.mem_cons_self _ _)]
        simp
  rw [hdrop, List.reverse_append, List.reverse_reverse, List.reverse_reverse]

theorem map_id_of_fixed {f : Char → Char} : ∀ {l : Str}, (∀ c ∈ l, f c = c) →
    l.map f = l := by
  intro l
  induction l with
  | nil => intro _; rfl
  | cons c cs ih =>
      intro h
      rw [List.map_cons, h c (List.mem_cons_self _ _), ih (fun x hx => h x (List.mem_cons_of_mem _ hx))]

theorem valOfDigits_cons_zero (t : Str) : valOfDigits ('0' :: t) = valOfDigits t := rfl

theorem valOfDigits_replicate_zero (k : ℕ) (d : Str) :
    valOfDigits (List.replicate k '0' ++ d) = valOfDigits d := by
  induction k with
  | zero => rfl
  | succ k ih =>
      rw [List.replicate_succ, List.cons_append, valOfDigits_cons_zero, ih]

theorem valOfDigits_pad2 (n : ℕ) : valOfDigits (pad2 n) = n := by
  rw [pad2, padLeft, valOfDigits_replicate_zero]
  exact (natDigits_spec n).2

/-- The episode tag `E{idx+1:02d}` produced for a non-movie item. -/
def eTag (i : ℕ) : Str := 'E' :: pad2 (i + 1)

theorem eTag_chars (i : ℕ) : ∀ c ∈ eTag i, c = 'E' ∨ c.isDigit = true := by
  intro c hc
  rcases List.mem_cons.mp hc with rfl | hc
  · exact Or.inl rfl
  · right
    rw [pad2, padLeft] at hc
    rcases List.mem_append.mp hc with hc | hc
    · rw [List.eq_of_mem_replicate hc]
      decide
    · exact (natDigits_spec (i + 1)).1 c hc

theorem eTag_not_ws (i : ℕ) : ∀ c ∈ eTag i, c.isWhitespace = false := by
  intro c hc
  rcases eTag_chars i c hc with rfl | hd
  · decide
  · exact isDigit_not_ws hd

theorem eTag_ne_nil (i : ℕ) : eTag i ≠ [] := List.cons_ne_nil _ _

theorem eTag_inj {i j : ℕ} (h : eTag i = eTag j) : i = j := by
  rw [eTag, eTag] at h
  have := List.tail_eq_of_cons_eq h
  have hv := congrArg valOfDigits this
  rw [valOfDigits_pad2, valOfDigits_pad2] at hv
  omega

theorem eTag_no_bracket (i : ℕ) {p : Str} (hp : p.head? = some '[') :
    containsSub (eTag i) p = false := by
  by_contra hcon
  rw [Bool.not_eq_false] at hcon
  have := head_mem_of_containsSub hcon '[' hp
  rcases eTag_chars i '[' this with h | h
  · exact absurd h (by decide)
  · exact absurd h (by decide)

theorem eTag_unsafe_free (i : ℕ) : ∀ c ∈ eTag i, c ∉ unsafeChars := by
  intro c hc hmem
  rcases eTag_chars i c hc with rfl | hd
  · exact absurd hmem (by decide)
  · have : ∀ u ∈ unsafeChars, u.isDigit = false := by decide
    rw [this c hmem] at hd
    exact Bool.noConfusion hd

theorem tagTitle_strad_tagEp :
    ∀ k, 0 < k → k < tagTitle.length → (tagTitle.drop k).isPrefixOf tagEp = false := by
  intro k h1 h2
  have hl : tagTitle.length = 4 := rfl
  rw [hl] at h2
  interval_cases k <;> decide

theorem tagOrig_strad_tagEp :
    ∀ k, 0 < k → k < tagOrig.length → (tagOrig.drop k).isPrefixOf tagEp = false := by
  intro k h1 h2
  have hl : tagOrig.length = 3 := rfl
  rw [hl] at h2
  interval_cases k <;> decide

theorem tagEp_strad_tagEp :
    ∀ k, 0 < k → k < tagEp.length → (tagEp.drop k).isPrefixOf tagEp = false := by
  intro k h1 h2
  have hl : tagEp.length = 4 := rfl
  rw [hl] at h2
  interval_cases k <;> decide

theorem tagSeq_strad_eTag (i : ℕ) :
    ∀ k, 0 < k → k < tagSeq.length → (tagSeq.drop k).isPrefixOf (eTag i) = false := by
  intro k h1 h2
  have hl : tagSeq.length = 4 := rfl
  rw [hl] at h2
  show (tagSeq.drop k).isPrefixOf ('E' :: pad2 (i + 1)) = false
  apply not_prefix_of_head
  · intro hcon
    have hlen := congrArg List.length hcon
    rw [List.length_drop, hl] at hlen
    simp at hlen
    omega
  · interval_cases k <;> decide

theorem pre3_strad_eTag (i : ℕ) :
    ∀ k, 0 < k → k < (['[', '序', '号'] : Str).length →
      ((['[', '序', '号'] : Str).drop k).isPrefixOf (eTag i) = false := by
  intro k h1 h2
  have hl : (['[', '序', '号'] : Str).length = 3 := rfl
  rw [hl] at h2
  show ((['[', '序', '号'] : Str).drop k).isPrefixOf ('E' :: pad2 (i + 1)) = false
  apply not_prefix_of_head
  · intro hcon
    have hlen := congrArg List.length hcon
    rw [List.length_drop, hl] at hlen
    simp at hlen
    omega
  · interval_cases k <;> decide

theorem containsSub_tagSeq_false {base : Str}
    (hSeq3 : containsSub base ['[', '序', '号'] = false) :
    containsSub base tagSeq = false := by
  by_contra hcon
  rw [Bool.not_eq_false] at hcon
  have : containsSub base (['[', '序', '号'] ++ [']']) = true := hcon
  rw [containsSub_mono this] at hSeq3
  exact Bool.noConfusion hSeq3

theorem apply_name_base (fmt kw rawT : Str) (i : ℕ) (base : Str)
    (hbase : replaceAll tagTitle kw fmt = base)
    (hOrig : containsSub base tagOrig = false)
    (hEp : containsSub base tagEp = false)
    (hSeq3 : containsSub base ['[', '序', '号'] = false) :
    apply_name_format fmt kw i false 3 rawT = base := by
  have hSeq := containsSub_tagSeq_false hSeq3
  rw [apply_name_format, hbase,
    replaceAll_not_contains (show tagOrig ≠ [] by decide) hOrig,
    replaceAll_not_contains (show tagEp ≠ [] by decide) hEp,
    replaceAll_not_contains (show tagSeq ≠ [] by decide) hSeq,
    findSeqWidths_empty hSeq3]
  rfl

theorem apply_name_ext (fmt kw rawT : Str) (i : ℕ) (base : Str)
    (hbase : replaceAll tagTitle kw fmt = base)
    (hOrig : containsSub base tagOrig = false)
    (hEp : containsSub base tagEp = false)
    (hSeq3 : containsSub base ['[', '序', '号'] = false) :
    apply_name_format (fmt ++ tagEp) kw i false 3 rawT = base ++ eTag i := by
  have hSeq := containsSub_tagSeq_false hSeq3
  have hA1 : replaceAll tagTitle kw (fmt ++ tagEp) = base ++ tagEp := by
    rw [replaceAll_append_right tagTitle kw tagEp (by decide) (by decide)
      tagTitle_strad_tagEp fmt, hbase]
  have hA2 : replaceAll tagOrig rawT (base ++ tagEp) = base ++ tagEp := by
    rw [replaceAll_append_right tagOrig rawT tagEp (by decide) (by decide)
      tagOrig_strad_tagEp base, replaceAll_not_contains (show tagOrig ≠ [] by decide) hOrig]
  have hif : (if (false : Bool) = true ∧ (3 : ℕ) = 1 then ([] : Str)
      else 'E' :: pad2 (i + 1)) = eTag i := by
    rw [if_neg (by simp)]
    rfl
  have hA3 : replaceAll tagEp (eTag i) (base ++ tagEp) = base ++ eTag i := by
    rw [replaceAll_append_self tagEp (eTag i) (by decide)
      tagEp_strad_tagEp base hEp,
      replaceAll_not_contains (show tagEp ≠ [] by decide) hEp]
  have hA4 : ∀ r : Str, replaceAll tagSeq r (base ++ eTag i) = base ++ eTag i := by
    intro r
    rw [replaceAll_append_right tagSeq r (eTag i) (by decide)
      (eTag_no_bracket i rfl) (tagSeq_strad_eTag i) base,
      replaceAll_not_contains (show tagSeq ≠ [] by decide) hSeq]
  have hA5 : findSeqWidths (base ++ eTag i) = [] := by
    apply findSeqWidths_empty
    exact containsSub_append_false (pre3_strad_eTag i) (eTag_no_bracket i rfl) hSeq3
  rw [apply_name_format, hA1, hA2]
  rw [hif, hA3, hA4, hA5]
  rfl

theorem sanitize_append_eTag (base : Str) (i : ℕ) :
    sanitizeName (base ++ eTag i) =
      (trimL (collapseWs base)).map (fun c => if c ∈ unsafeChars then '_' else c)
        ++ eTag i := by
  rw [sanitizeName, collapseWs_append (eTag i) (eTag_ne_nil i) (eTag_not_ws i),
    trimStr_append_safe _ (eTag i) (eTag_ne_nil i) (eTag_not_ws i),
    List.map_append]
  congr 1
  exact map_id_of_fixed (fun c hc => if_neg (eTag_unsafe_free i c hc))

/-- C9, counterexample.  If the search keyword itself contains the episode
placeholder (`kw = "X[集数]"`), a template with no episode-varying
placeholder (`"[标题]"`) over 3 non-movie items already expands to three
distinct dry-run names, so the collision pre-check does *not* detect a
collision and the placeholder is *not* appended — refuting the claim that
for every such batch the dry run detects a below-count distinct-name count
and appends `[集数]`. -/
theorem c9_counterexample :
    (([0, 1, 2].map (fun i => apply_name_format "[标题]".toList "X[集数]".toList i false 3
        ['t'])).dedup.length = 3) ∧
    (resolveNames "[标题]".toList "X[集数]".toList [0, 1, 2] false (fun _ => ['t'])).1 =
      "[标题]".toList ∧
    (resolveNames "[标题]".toList "X[集数]".toList [0, 1, 2] false (fun _ => ['t'])).1 ≠
      "[标题]".toList ++ tagEp := by
  refine ⟨by decide, by decide, by decide⟩

/-- C9 (amended): for a non-movie batch of 3 distinct items whose template
contains no episode-varying placeholder **and whose expanded values
introduce none** (the title substitution `base` contains no `[原]`,
`[集数]` or `[序号` occurrence — cf. the double-substitution caveat of the
replace-chain), the dry run produces a single distinct name (count 1 < 3),
the episode-tag placeholder `[集数]` is appended to the template (it was
not already present), and the real run produces 3 pairwise-distinct
filenames. -/
theorem c9_theorem (fmt kw base : Str) (titles : ℕ → Str) (i1 i2 i3 : ℕ)
    (hne12 : i1 ≠ i2) (hne13 : i1 ≠ i3) (hne23 : i2 ≠ i3)
    (hbase : replaceAll tagTitle kw fmt = base)
    (hOrig : containsSub base tagOrig = false)
    (hEp : containsSub base tagEp = false)
    (hSeq3 : containsSub base ['[', '序', '号'] = false)
    (hfmtEp : containsSub fmt tagEp = false) :
    ([i1, i2, i3].map
        (fun i => apply_name_format fmt kw i false 3 (titles i))).dedup.length = 1 ∧
    (resolveNames fmt kw [i1, i2, i3] false titles).1 = fmt ++ tagEp ∧
    (resolveNames fmt kw [i1, i2, i3] false titles).2.Pairwise (· ≠ ·) := by
  have htest : [i1, i2, i3].map (fun i => apply_name_format fmt kw i false 3 (titles i)) =
      [base, base, base] := by
    simp only [List.map_cons, List.map_nil]
    rw [apply_name_base fmt kw (titles i1) i1 base hbase hOrig hEp hSeq3,
      apply_name_base fmt kw (titles i2) i2 base hbase hOrig hEp hSeq3,
      apply_name_base fmt kw (titles i3) i3 base hbase hOrig hEp hSeq3]
  have hdedup : ([base, base, base] : List Str).dedup = [base] := by
    simp
  have hlen3 : ([i1, i2, i3] : List ℕ).length = 3 := rfl
  have hfmt' : (resolveNames fmt kw [i1, i2, i3] false titles).1 = fmt ++ tagEp := by
    rw [resolveNames]
    simp only [hlen3, htest, hdedup]
    rw [if_pos ⟨by norm_num, by rw [List.length_singleton]; norm_num, hfmtEp⟩]
  refine ⟨by rw [htest, hdedup, List.length_singleton], hfmt', ?_⟩
  have hnames : (resolveNames fmt kw [i1, i2, i3] false titles).2 =
      [sanitizeName (base ++ eTag i1), sanitizeName (base ++ eTag i2),
        sanitizeName (base ++ eTag i3)] := by
    rw [resolveNames]
    simp only [hlen3, htest, hdedup]
    rw [if_pos ⟨by norm_num, by rw [List.length_singleton]; norm_num, hfmtEp⟩]
    simp only [List.map_cons, List.map_nil]
    rw [apply_name_ext fmt kw (titles i1) i1 base hbase hOrig hEp hSeq3,
      apply_name_ext fmt kw (titles i2) i2 base hbase hOrig hEp hSeq3,
      apply_name_ext fmt kw (titles i3) i3 base hbase hOrig hEp hSeq3]
  rw [hnames]
  have hkey : ∀ i j : ℕ, i ≠ j → sanitizeName (base ++ eTag i) ≠ sanitizeName (base ++ eTag j) := by
    intro i j hij hcon
    rw [sanitize_append_eTag, sanitize_append_eTag] at hcon
    exact hij (eTag_inj (List.append_cancel_left hcon))
  refine List.pairwise_cons.mpr ⟨?_, List.pairwise_cons.mpr ⟨?_, List.pairwise_singleton _ _⟩⟩
  · intro x hx
    rcases List.mem_cons.mp hx with rfl | hx
    · exact hkey i1 i2 hne12
    · rw [List.mem_singleton.mp hx]
      exact hkey i1 i3 hne13
  · intro x hx
    rw [List.mem_singleton.mp hx]
    exact hkey i2 i3 hne23

/-- Witness for `c9_theorem`: template `"[标题]"`, keyword `"Foo"`, items 0, 1, 2. -/
theorem c9_theorem_witness :
    replaceAll tagTitle "Foo".toList "[标题]".toList = "Foo".toList ∧
    containsSub "Foo".toList tagOrig = false ∧
    ([0, 1, 2].map (fun i => apply_name_format "[标题]".toList "Foo".toList i false 3
        ['t'])).dedup.length = 1 ∧
    (resolveNames "[标题]".toList "Foo".toList [0, 1, 2] false (fun _ => ['t'])).1 =
      "[标题]".toList ++ tagEp ∧
    (resolveNames "[标题]".toList "Foo".toList [0, 1, 2] false
      (fun _ => ['t'])).2.Pairwise (· ≠ ·) := by
  have h := c9_theorem "[标题]".toList "Foo".toList "Foo".toList (fun _ => ['t']) 0 1 2
    (by decide) (by decide) (by decide) (by decide) (by decide) (by decide)
    (by decide) (by decide)
  exact ⟨by decide, by decide, h.1, h.2.1, h.2.2⟩
